import Mathlib

/-!
# epub2audio: the text pipeline of `app/xhtml2audio/xhtml2txt.go`

A shallow embedding of `addPause`, `xhtml2txt`, `splitString` and
`getIndexByDelimiter`, and the properties of them that the specification
states.

Modelling conventions.

* A Go `string` is modelled by the sequence of its codepoints (`Str`): the
  inputs are taken to be valid UTF-8, so `[]rune(s)` is the sequence itself,
  `string(runes)` is the identity and `utf8.RuneCountInString` is `length`.
  The byte offsets the source slices with always fall on tag characters,
  which are ASCII, so they are written here as codepoint offsets.
* Go `int` is modelled by `Int`.  The splitter only adds `maxChar` to the
  cursor after `inputLen > maxChar` has been established, so no sum leaves
  the range of a machine integer.
* The `for` loop of `splitString` takes a fuel argument (one unit per
  iteration); a slice expression with bad bounds panics.
-/

namespace Epub2Audio

/-- A string, as its sequence of codepoints. -/
abbrev Str := List Char

/-! ## getIndexByDelimiter -/

/-- Character class of the pattern `[,.、。，．\n]`. -/
def isDelimiter (c : Char) : Bool :=
  c == ',' || c == '.' || c == '、' || c == '。' || c == '，' || c == '．' || c == '\n'

/-- One entry per match `loc` of the delimiter pattern, in text order: the
value `utf8.RuneCountInString(substr[:loc[1]])`, i.e. the number of codepoints
up to and including the matched delimiter.  The first argument counts the
codepoints already passed. -/
def delimiterEnds : Nat → Str → List Nat
  | _, [] => []
  | k, c :: cs =>
    if isDelimiter c then (k + 1) :: delimiterEnds (k + 1) cs
    else delimiterEnds (k + 1) cs

/-- Body of the loop over the matches: `if splitIndexInRunes > splitIndex`
the running maximum `splitIndex` is replaced. -/
def keepLargest (splitIndex : Int) (splitIndexInRunes : Nat) : Int :=
  if (splitIndexInRunes : Int) > splitIndex then (splitIndexInRunes : Int) else splitIndex

/-- Source `getIndexByDelimiter`: starting from `-1`, keep the largest
codepoint count over all matches. -/
def getIndexByDelimiter (src : Str) : Int :=
  List.foldl keepLargest (-1) (delimiterEnds 0 src)

/-! ## splitString -/

/-- How a run of `splitString` ends. -/
inductive Outcome where
  | ok (chunks : List Str)
  | panic
  | timeout
  deriving DecidableEq, Repr

/-- The slice expression `runes[lo:hi]`; `none` is the run-time panic on bad
bounds. -/
def slice (runes : Str) (lo hi : Int) : Option Str :=
  if 0 ≤ lo ∧ lo ≤ hi ∧ hi ≤ (runes.length : Int) then
    some ((runes.take hi.toNat).drop lo.toNat)
  else none

/-- The `for start < len(lineRunes)` loop of `splitString`, one unit of fuel
per iteration; the state is the cursor `start` and the chunks appended so
far. -/
def splitLoop (lineRunes : Str) (inputLen maxChar : Int) : Nat → Int → List Str → Outcome
  | 0, start, result =>
    if start < (lineRunes.length : Int) then Outcome.timeout else Outcome.ok result
  | fuel + 1, start, result =>
    if start < (lineRunes.length : Int) then
      let end0 := if start + maxChar > inputLen then inputLen else start + maxChar
      if end0 ≥ (lineRunes.length : Int) then
        match slice lineRunes start lineRunes.length with
        | none => Outcome.panic
        | some chunk => Outcome.ok (result ++ [chunk])
      else
        match slice lineRunes start end0 with
        | none => Outcome.panic
        | some window =>
          let splitIndex := getIndexByDelimiter window
          let end1 := if splitIndex ≠ -1 then start + splitIndex else start + maxChar
          match slice lineRunes start end1 with
          | none => Outcome.panic
          | some chunk => splitLoop lineRunes inputLen maxChar fuel end1 (result ++ [chunk])
    else Outcome.ok result

/-- Source `splitString`, run with the given fuel. -/
def splitString (fuel : Nat) (input : Str) (maxChar : Int) : Outcome :=
  if (input.length : Int) ≤ maxChar then Outcome.ok [input]
  else splitLoop input input.length maxChar fuel 0 []

/-! ## Regular-expression replacement -/

/-- Leftmost, non-overlapping replacement as done by `ReplaceAllStringFunc`
and `ReplaceAllString` of package `regexp`.  `matchAt s` is the length of the
match the pattern has at the head of `s`, if it has one (the preferred one of
the leftmost-first semantics); `repl` maps the matched text to its
replacement.  After a match the search resumes behind it: the first argument
counts the codepoints of the match still to be passed over.  No pattern of
this program matches the empty string, so a match of length zero does not
occur. -/
def replaceAllFunc (matchAt : Str → Option Nat) (repl : Str → Str) : Nat → Str → Str
  | _, [] => []
  | skip + 1, _ :: cs => replaceAllFunc matchAt repl skip cs
  | 0, c :: cs =>
    match matchAt (c :: cs) with
    | some (n + 1) => repl ((c :: cs).take (n + 1)) ++ replaceAllFunc matchAt repl n cs
    | _ => c :: replaceAllFunc matchAt repl 0 cs

/-- Match of a literal at the head of a text. -/
def matchLiteral (old : Str) (s : Str) : Option Nat :=
  if old.isPrefixOf s then some old.length else none

/-- `strings.ReplaceAll(s, old, new)` for a non-empty `old`: every
non-overlapping instance of `old`, from the left, is replaced by `new`. -/
def stringsReplaceAll (old new : Str) (s : Str) : Str :=
  replaceAllFunc (matchLiteral old) (fun _ => new) 0 s

/-- The part `(.*?)close` of a pattern, at the head of a text: the number of
codepoints the lazy `.*?` takes, i.e. the least `k` such that the first `k`
codepoints hold no newline (`.` does not match `\n`) and `close` follows
them. -/
def lazyUntil (close : Str) : Str → Option Nat
  | [] => if close.isPrefixOf [] then some 0 else none
  | c :: cs =>
    if close.isPrefixOf (c :: cs) then some 0
    else if c = '\n' then none
    else (lazyUntil close cs).map (· + 1)

/-- Match of the pattern `open(.*?)close` at the head of a text. -/
def matchTagged (opn close : Str) (s : Str) : Option Nat :=
  if opn.isPrefixOf s then
    (lazyUntil close (s.drop opn.length)).map (fun k => opn.length + k + close.length)
  else none

/-! ## addPause -/

/-- The text `<h%d>` for level `i`. -/
def headingOpen (i : Nat) : Str := ['<', 'h', Nat.digitChar i, '>']

/-- The text `</h%d>` for level `i`. -/
def headingClose (i : Nat) : Str := ['<', '/', 'h', Nat.digitChar i, '>']

/-- The pause character, U+3000. -/
def pauseChar : Char := '　'

/-- The replacement function of the heading loop, applied to a match `s` of
`<hi>(.*?)</hi>`: `tag := s[0:3]`, `content := s[3 : len(s)-5]`, then
`tag + (content + spaces) + s[len(s)-5:]` with `18 - 2*(i-1)` pause characters. -/
def padHeading (i : Nat) (s : Str) : Str :=
  let tag := s.take 3
  let content := (s.take (s.length - 5)).drop 3
  let spaces := List.replicate (18 - 2 * (i - 1)) pauseChar
  tag ++ (content ++ spaces) ++ s.drop (s.length - 5)

/-- The replacement function for a match `s` of `<span>(.*?)</span>`:
`content := s[6 : len(s)-7]`, then `<span>` + content + two pause characters +
`</span>`. -/
def padSpan (s : Str) : Str :=
  let content := (s.take (s.length - 7)).drop 6
  "<span>".toList ++ content ++ [pauseChar, pauseChar] ++ "</span>".toList

/-- Match of the pattern `</h[1-8]>` at the head of a text. -/
def matchHeadingClose : Str → Option Nat
  | a :: b :: c :: n :: e :: _ =>
    if a = '<' ∧ b = '/' ∧ c = 'h' ∧ ('1' ≤ n ∧ n ≤ '8') ∧ e = '>' then some 5 else none
  | _ => none

/-- One pass of the heading loop, for level `i`. -/
def padHeadings (i : Nat) (input : Str) : Str :=
  replaceAllFunc (matchTagged (headingOpen i) (headingClose i)) (padHeading i) 0 input

/-- Source `addPause`. -/
def addPause (input : Str) : Str :=
  let input := (List.range' 1 6).foldl (fun inp i => padHeadings i inp) input
  let input := replaceAllFunc (matchTagged "<span>".toList "</span>".toList) padSpan 0 input
  let input := stringsReplaceAll "</p>".toList "</p>\n".toList input
  let input := replaceAllFunc matchHeadingClose (fun s => s ++ ['\n']) 0 input
  let input := stringsReplaceAll "<br>".toList "<br>\n".toList input
  input

/-! ## xhtml2txt -/

/-- Match of the pattern `<[^>]*>` at the head of a text: a `<`, then all
codepoints up to the next `>` (a negated class also matches a newline). -/
def matchTag : Str → Option Nat
  | [] => none
  | c :: cs =>
    if c = '<' ∧ '>' ∈ cs then some (1 + (cs.takeWhile (· ≠ '>')).length + 1) else none

/-- Character class `\s`, which is `[\t\n\f\r ]`. -/
def isSpace (c : Char) : Bool :=
  c == '\t' || c == '\n' || c == '\x0c' || c == '\r' || c == ' '

/-- The part `$\n` of the blank-line pattern at the head of a text.  The
pattern is compiled without the `m` flag, so `$` holds at the end of the text
only; `\n` then has to match one more codepoint. -/
def matchEndNewline (s : Str) : Option Nat :=
  if s.isEmpty then
    match s with
    | c :: _ => if c = '\n' then some 1 else none
    | [] => none
  else none

/-- The part `\s*$\n` of the blank-line pattern at the head of a text: the
greedy `\s*` takes as many codepoints as it can and gives them back one at a
time. -/
def matchBlankRest : Str → Option Nat
  | [] => matchEndNewline []
  | c :: cs =>
    if isSpace c then
      match matchBlankRest cs with
      | some n => some (n + 1)
      | none => matchEndNewline (c :: cs)
    else matchEndNewline (c :: cs)

/-- `ReplaceAllString` with the pattern `^\s*$\n` and the empty replacement.
Without the `m` flag `^` holds at the start of the text only, so the one
place a match can start is offset 0. -/
def removeBlankLines (input : Str) : Str :=
  match matchBlankRest input with
  | some n => input.drop n
  | none => input

/-- `strings.TrimRight(input, "\n")`. -/
def trimRightNewlines (input : Str) : Str :=
  input.rdropWhile (· == '\n')

/-- Source `xhtml2txt`. -/
def xhtml2txt (input : Str) : Str :=
  let input := addPause input
  let input := replaceAllFunc matchTag (fun _ => []) 0 input
  let input := removeBlankLines input
  let input := trimRightNewlines input
  input

/-! ## Auxiliary functions used in the proofs -/

/-- Number of codepoints the loop body cuts off a text that is longer than
`m`: up to the last delimiter of its first `m` codepoints, or `m`. -/
def cutAt (m : Nat) (rest : Str) : Nat :=
  if getIndexByDelimiter (rest.take m) ≠ -1 then (getIndexByDelimiter (rest.take m)).toNat else m

/-- The chunks the loop appends when its cursor stands before `rest`. -/
def chunksFrom (m : Nat) : Nat → Str → List Str
  | 0, _ => []
  | fuel + 1, rest =>
    if rest.length ≤ m then [rest]
    else rest.take (cutAt m rest) :: chunksFrom m fuel (rest.drop (cutAt m rest))

/-- Codepoint offset at which chunk number `i` of a chunk sequence starts: the
total length of the chunks before it. -/
def chunkStart (chunks : List Str) (i : Nat) : Nat :=
  ((chunks.take i).flatten).length

/-- `Inserted ok x y`: the text `y` is `x` with codepoints satisfying `ok`
inserted at some places. -/
inductive Inserted (ok : Char → Prop) : Str → Str → Prop where
  | nil : Inserted ok [] []
  | keep (c : Char) {x y : Str} : Inserted ok x y → Inserted ok (c :: x) (c :: y)
  | add (c : Char) {x y : Str} : ok c → Inserted ok x y → Inserted ok x (c :: y)

/-- Every occurrence of `q` in `y` is immediately followed by a newline. -/
def NewlineAfter (q y : Str) : Prop :=
  ∀ pre suf, y = pre ++ q ++ suf → ∃ suf2, suf = '\n' :: suf2

/-- No `<` of the text is followed, anywhere later, by a `>`. -/
def NoTag (l : Str) : Prop :=
  ∀ pre suf, l = pre ++ '<' :: suf → '>' ∉ suf

/-- What one iteration of the loop of `splitString` does: it appends a chunk
and leaves the loop (`final`), appends a chunk and moves the cursor (`next`),
or panics in a slice expression (`fail`). -/
inductive Step where
  | final (chunk : Str)
  | next (chunk : Str) (start : Int)
  | fail
  deriving DecidableEq, Repr

/-- The body of the `for` loop of `splitString`, entered with cursor `start`
(the loop condition `start < len(lineRunes)` has been checked). -/
def loopBody (lineRunes : Str) (inputLen maxChar start : Int) : Step :=
  let end0 := if start + maxChar > inputLen then inputLen else start + maxChar
  if end0 ≥ (lineRunes.length : Int) then
    match slice lineRunes start lineRunes.length with
    | none => Step.fail
    | some chunk => Step.final chunk
  else
    match slice lineRunes start end0 with
    | none => Step.fail
    | some window =>
      let splitIndex := getIndexByDelimiter window
      let end1 := if splitIndex ≠ -1 then start + splitIndex else start + maxChar
      match slice lineRunes start end1 with
      | none => Step.fail
      | some chunk => Step.next chunk end1

/-- The 0-based codepoint index of the last delimiter of a text, if it has
one. -/
def lastDelimiterIndex : Str → Option Nat
  | [] => none
  | c :: cs =>
    match lastDelimiterIndex cs with
    | some k => some (k + 1)
    | none => if isDelimiter c then some 0 else none

/-- Length of the first chunk as the recursive description of the splitter
words it: the prefix ends at the rightmost delimiter among the first `m`
codepoints, or takes the first `m` codepoints when there is none. -/
def rightmostCut (m : Nat) (T : Str) : Nat :=
  match lastDelimiterIndex (T.take m) with
  | some k => k + 1
  | none => m

/-- A text made of tags and of the text that follows each tag:
`render [t₀, t₁, …] [u₀, u₁, …]` is `t₀ u₀ t₁ u₁ …`. -/
def render : List Str → List Str → Str
  | t :: ts, u :: us => t ++ (u ++ render ts us)
  | _, _ => []

/-- The texts after the tags once a pass for `opn(.*?)close` has appended
`pad` to the content of every `opn` tag. -/
def padAfter (opn pad : Str) : List Str → List Str → List Str
  | t :: ts, u :: us => (if t = opn then u ++ pad else u) :: padAfter opn pad ts us
  | _, _ => []

/-- The texts after the tags once a pass has put a newline behind every tag
selected by `hit`. -/
def newlineAfterTags (hit : Str → Bool) : List Str → List Str → List Str
  | t :: ts, u :: us => (if hit t then '\n' :: u else u) :: newlineAfterTags hit ts us
  | _, _ => []

/-- A `<` followed by codepoints other than `<`. -/
def isTagText : Str → Bool
  | c :: t2 => c == '<' && t2.all (fun x => x != '<')
  | [] => false

/-- Neither text is a prefix of the other. -/
def incomparable (p t : Str) : Bool := !(p.isPrefixOf t) && !(t.isPrefixOf p)

/-- The tags suit a pass for `opn(.*?)close`: every `opn` is directly followed
by `close`, and no other tag can be confused with `opn`. -/
def tagsFitTagged (opn close : Str) : List Str → Bool
  | [] => true
  | t :: ts =>
    isTagText t &&
    (if t = opn then
      (match ts with
        | t2 :: _ => t2 == close
        | [] => false)
     else incomparable opn t) &&
    tagsFitTagged opn close ts

/-- The tags suit a pass that replaces the literal `old`: every tag is `old`
itself or cannot be confused with it. -/
def tagsFitLiteral (old : Str) (ts : List Str) : Bool :=
  ts.all (fun t => isTagText t && (t == old || incomparable old t))

/-- The tag is one of `</h1>` … `</h8>`. -/
def isCloseTag : Str → Bool
  | [a, b, c, n, e] => a == '<' && b == '/' && c == 'h' && decide ('1' ≤ n ∧ n ≤ '8') && e == '>'
  | _ => false

/-- The tag does not start with `</h`. -/
def notCloseStart : Str → Bool
  | a :: b :: c :: _ => a != '<' || b != '/' || c != 'h'
  | _ => false

/-- The tags suit the pass for `</h[1-8]>`: every tag is a match of the pattern
or does not start with `</h`. -/
def tagsFitClose (ts : List Str) : Bool :=
  ts.all (fun t => isTagText t && (isCloseTag t || notCloseStart t))

/-- The tag is `<`, codepoints other than `>`, and `>`. -/
def isClosedTag : Str → Bool
  | c :: t2 =>
    c == '<' && t2.getLast? == some '>' && t2.dropLast.all (fun x => x != '>')
  | [] => false

/-- The texts after the tags once all passes of `addPause` have run. -/
def contentsAfterAddPause (ts us : List Str) : List Str :=
  newlineAfterTags (fun t => t == "<br>".toList) ts
    (newlineAfterTags isCloseTag ts
      (newlineAfterTags (fun t => t == "</p>".toList) ts
        (padAfter "<span>".toList [pauseChar, pauseChar] ts
          ((List.range' 1 6).foldl
            (fun vs i =>
              padAfter (headingOpen i) (List.replicate (18 - 2 * (i - 1)) pauseChar) ts vs)
            us))))

/-- The tags suit every pass of `addPause` and the tag-deleting pass of
`xhtml2txt`. -/
def tagsFitAll (ts : List Str) : Bool :=
  (List.range' 1 6).all (fun i => tagsFitTagged (headingOpen i) (headingClose i) ts) &&
  tagsFitTagged "<span>".toList "</span>".toList ts &&
  tagsFitLiteral "</p>".toList ts && tagsFitClose ts && tagsFitLiteral "<br>".toList ts &&
  ts.all isClosedTag

/-! ## Facts about getIndexByDelimiter -/

theorem delimiterEnds_of_none (s : Str) (k : Nat) (h : ∀ c ∈ s, isDelimiter c = false) :
    delimiterEnds k s = [] := by
  induction s generalizing k with
  | nil => rfl
  | cons c cs ih =>
    have hc : isDelimiter c = false := h c (List.mem_cons_self _ _)
    simp only [delimiterEnds, hc]
    exact ih (k + 1) (fun x hx => h x (List.mem_cons_of_mem _ hx))

theorem foldl_delimiterEnds_last (pre : Str) (d : Char) (suf : Str) (k : Nat) (a : Int)
    (ha : a ≤ k) (hd : isDelimiter d = true) (hs : ∀ c ∈ suf, isDelimiter c = false) :
    List.foldl keepLargest a (delimiterEnds k (pre ++ d :: suf))
      = ((k + pre.length + 1 : Nat) : Int) := by
  induction pre generalizing k a with
  | nil =>
    simp only [List.nil_append, delimiterEnds, hd, if_true, List.foldl_cons,
      delimiterEnds_of_none suf (k + 1) hs, List.foldl_nil, List.length_nil, keepLargest]
    rw [if_pos (by push_cast; omega)]
  | cons c cs ih =>
    simp only [List.cons_append, delimiterEnds, List.length_cons, List.append_eq]
    by_cases hc : isDelimiter c = true
    · simp only [hc, if_true, List.foldl_cons, keepLargest]
      rw [if_pos (by push_cast; omega), ih (k + 1) _ (le_refl _)]
      congr 1; omega
    · simp only [hc, Bool.false_eq_true, if_false]
      rw [ih (k + 1) a (by push_cast; omega)]
      congr 1; omega

theorem getIndexByDelimiter_of_none (s : Str) (h : ∀ c ∈ s, isDelimiter c = false) :
    getIndexByDelimiter s = -1 := by
  simp [getIndexByDelimiter, delimiterEnds_of_none s 0 h]

theorem getIndexByDelimiter_of_last (pre : Str) (d : Char) (suf : Str)
    (hd : isDelimiter d = true) (hs : ∀ c ∈ suf, isDelimiter c = false) :
    getIndexByDelimiter (pre ++ d :: suf) = (pre.length + 1 : Nat) := by
  unfold getIndexByDelimiter
  rw [foldl_delimiterEnds_last pre d suf 0 (-1) (by simp) hd hs]
  congr 1; omega

theorem last_delimiter_split (s : Str) :
    (∀ c ∈ s, isDelimiter c = false) ∨
    ∃ pre d suf, s = pre ++ d :: suf ∧ isDelimiter d = true ∧ ∀ c ∈ suf, isDelimiter c = false := by
  induction s with
  | nil => left; simp
  | cons c cs ih =>
    rcases ih with h | ⟨pre, d, suf, rfl, hd, hs⟩
    · by_cases hc : isDelimiter c = true
      · exact Or.inr ⟨[], c, cs, rfl, hc, h⟩
      · left
        intro x hx
        rcases List.mem_cons.mp hx with rfl | hx
        · simpa using hc
        · exact h x hx
    · exact Or.inr ⟨c :: pre, d, suf, rfl, hd, hs⟩

theorem getIndexByDelimiter_range (s : Str) :
    getIndexByDelimiter s = -1 ∨
      (1 ≤ getIndexByDelimiter s ∧ getIndexByDelimiter s ≤ (s.length : Int)) := by
  rcases last_delimiter_split s with h | ⟨pre, d, suf, rfl, hd, hs⟩
  · exact Or.inl (getIndexByDelimiter_of_none s h)
  · right
    rw [getIndexByDelimiter_of_last pre d suf hd hs]
    simp only [List.length_append, List.length_cons]
    constructor <;> push_cast <;> omega

theorem cutAt_bounds (m : Nat) (rest : Str) (hm : 1 ≤ m) (hlen : m ≤ rest.length) :
    1 ≤ cutAt m rest ∧ cutAt m rest ≤ m := by
  unfold cutAt
  have hl : (rest.take m).length = m := by simp [hlen]
  rcases getIndexByDelimiter_range (rest.take m) with h | ⟨h1, h2⟩
  · simp [h, hm]
  · rw [hl] at h2
    rw [if_pos (by omega)]
    omega

/-! ## The loop of splitString -/

theorem slice_nat (T : Str) (a b : Nat) (h1 : a ≤ b) (h2 : b ≤ T.length) :
    slice T (a : Int) (b : Int) = some ((T.drop a).take (b - a)) := by
  unfold slice
  rw [if_pos (by omega)]
  simp [List.drop_take]

theorem chunksFrom_succ_short (m fuel : Nat) (rest : Str) (h : rest.length ≤ m) :
    chunksFrom m (fuel + 1) rest = [rest] := by
  simp [chunksFrom, h]

theorem chunksFrom_succ_long (m fuel : Nat) (rest : Str) (h : m < rest.length) :
    chunksFrom m (fuel + 1) rest
      = rest.take (cutAt m rest) :: chunksFrom m fuel (rest.drop (cutAt m rest)) := by
  simp [chunksFrom, Nat.not_le.mpr h]

theorem splitLoop_eq (T : Str) (m : Nat) (hm : 1 ≤ m) :
    ∀ (fuel start : Nat) (result : List Str), start < T.length → T.length - start ≤ fuel →
      splitLoop T (T.length : Int) (m : Int) fuel (start : Int) result
        = Outcome.ok (result ++ chunksFrom m fuel (T.drop start)) := by
  intro fuel
  induction fuel with
  | zero => intro start result hs hf; omega
  | succ fuel ih =>
    intro start result hs hf
    rw [splitLoop, if_pos (by exact_mod_cast hs)]
    by_cases hfin : T.length ≤ start + m
    · have hge : (if (start : Int) + (m : Int) > (T.length : Int) then (T.length : Int)
          else (start : Int) + (m : Int)) ≥ (T.length : Int) := by
        split <;> omega
      simp only [hge, if_true]
      rw [slice_nat T start T.length (by omega) (le_refl _)]
      rw [chunksFrom_succ_short m fuel _ (by simp; omega)]
      simp
    · have hlt : start + m < T.length := by omega
      have he : (if (start : Int) + (m : Int) > (T.length : Int) then (T.length : Int)
          else (start : Int) + (m : Int)) = ((start + m : Nat) : Int) := by
        rw [if_neg (by omega)]; push_cast; rfl
      simp only [he]
      rw [if_neg (by push_cast; omega)]
      rw [slice_nat T start (start + m) (by omega) (by omega)]
      have hw : List.take (start + m - start) (List.drop start T) = (T.drop start).take m := by
        congr 1; omega
      simp only [hw]
      have hb := cutAt_bounds m (T.drop start) hm (by simp; omega)
      have hend : (if getIndexByDelimiter ((T.drop start).take m) ≠ -1
            then (start : Int) + getIndexByDelimiter ((T.drop start).take m)
            else (start : Int) + (m : Int))
          = ((start + cutAt m (T.drop start) : Nat) : Int) := by
        unfold cutAt
        rcases getIndexByDelimiter_range ((T.drop start).take m) with h | ⟨h1, h2⟩
        · simp [h]
        · rw [if_pos (by omega), if_pos (by omega)]
          push_cast
          omega
      simp only [hend]
      rw [slice_nat T start (start + cutAt m (T.drop start)) (by omega) (by omega)]
      simp only []
      rw [ih (start + cutAt m (T.drop start)) _ (by omega) (by omega)]
      rw [chunksFrom_succ_long m fuel _ (by simp; omega)]
      have hc : start + cutAt m (T.drop start) - start = cutAt m (T.drop start) := by omega
      simp [hc, List.drop_drop, Nat.add_comm]

theorem splitString_eq (T : Str) (m fuel : Nat) (hm : 1 ≤ m) (hf : T.length ≤ fuel) :
    splitString fuel T (m : Int)
      = Outcome.ok (if T.length ≤ m then [T] else chunksFrom m fuel T) := by
  unfold splitString
  by_cases h : T.length ≤ m
  · rw [if_pos (by exact_mod_cast h), if_pos h]
  · rw [if_neg (by omega), if_neg h]
    have := splitLoop_eq T m hm fuel 0 [] (by omega) (by omega)
    simpa using this

/-! ## Facts about the chunks of the loop -/

theorem chunksFrom_flatten (m : Nat) (hm : 1 ≤ m) :
    ∀ (fuel : Nat) (rest : Str), rest.length ≤ fuel →
      (chunksFrom m fuel rest).flatten = rest := by
  intro fuel
  induction fuel with
  | zero =>
    intro rest h
    have : rest = [] := List.eq_nil_of_length_eq_zero (by omega)
    simp [chunksFrom, this]
  | succ fuel ih =>
    intro rest h
    by_cases hs : rest.length ≤ m
    · simp [chunksFrom_succ_short m fuel rest hs]
    · have hb := cutAt_bounds m rest hm (by omega)
      rw [chunksFrom_succ_long m fuel rest (by omega), List.flatten_cons,
        ih _ (by simp; omega), List.take_append_drop]

theorem chunksFrom_length_le (m : Nat) (hm : 1 ≤ m) :
    ∀ (fuel : Nat) (rest : Str), ∀ c ∈ chunksFrom m fuel rest, c.length ≤ m := by
  intro fuel
  induction fuel with
  | zero => intro rest c hc; simp [chunksFrom] at hc
  | succ fuel ih =>
    intro rest c hc
    by_cases hs : rest.length ≤ m
    · rw [chunksFrom_succ_short m fuel rest hs] at hc
      simp at hc
      simpa [hc] using hs
    · have hb := cutAt_bounds m rest hm (by omega)
      rw [chunksFrom_succ_long m fuel rest (by omega)] at hc
      rcases List.mem_cons.mp hc with rfl | hc
      · simp; omega
      · exact ih _ c hc

theorem chunksFrom_ne_nil (m : Nat) (hm : 1 ≤ m) :
    ∀ (fuel : Nat) (rest : Str), rest ≠ [] → ∀ c ∈ chunksFrom m fuel rest, c ≠ [] := by
  intro fuel
  induction fuel with
  | zero => intro rest _ c hc; simp [chunksFrom] at hc
  | succ fuel ih =>
    intro rest hne c hc
    by_cases hs : rest.length ≤ m
    · rw [chunksFrom_succ_short m fuel rest hs] at hc
      simp at hc
      simpa [hc] using hne
    · have hb := cutAt_bounds m rest hm (by omega)
      rw [chunksFrom_succ_long m fuel rest (by omega)] at hc
      rcases List.mem_cons.mp hc with rfl | hc
      · intro h0
        have := congrArg List.length h0
        rw [List.length_take, List.length_nil] at this
        omega
      · refine ih _ ?_ c hc
        intro h0
        have := congrArg List.length h0
        simp at this
        omega

theorem getIndexByDelimiter_of_rightmost (w : Str) (j : Nat) (d : Char)
    (hj : w[j]? = some d) (hd : isDelimiter d = true)
    (hr : ∀ j' d', j < j' → w[j']? = some d' → isDelimiter d' = false) :
    getIndexByDelimiter w = ((j + 1 : Nat) : Int) := by
  obtain ⟨hlt, hget⟩ := List.getElem?_eq_some.mp hj
  have hsplit : w.take j ++ d :: w.drop (j + 1) = w := by
    rw [← hget, ← List.drop_eq_getElem_cons hlt, List.take_append_drop]
  have hsuf : ∀ c ∈ w.drop (j + 1), isDelimiter c = false := by
    intro c hc
    obtain ⟨n, hn⟩ := List.mem_iff_getElem?.mp hc
    rw [List.getElem?_drop] at hn
    exact hr (j + 1 + n) c (by omega) hn
  have := getIndexByDelimiter_of_last (w.take j) d (w.drop (j + 1)) hd hsuf
  rw [hsplit, List.length_take, Nat.min_eq_left (by omega)] at this
  exact this

theorem cutAt_of_rightmost (m : Nat) (rest : Str) (j : Nat) (d : Char)
    (hj : (rest.take m)[j]? = some d) (hd : isDelimiter d = true)
    (hr : ∀ j' d', j < j' → (rest.take m)[j']? = some d' → isDelimiter d' = false) :
    cutAt m rest = j + 1 := by
  unfold cutAt
  rw [getIndexByDelimiter_of_rightmost (rest.take m) j d hj hd hr, if_pos (by omega)]
  omega

theorem cutAt_of_none (m : Nat) (rest : Str)
    (h : ∀ c ∈ rest.take m, isDelimiter c = false) : cutAt m rest = m := by
  unfold cutAt
  rw [getIndexByDelimiter_of_none _ h]
  simp

theorem chunkStart_zero (chunks : List Str) : chunkStart chunks 0 = 0 := by
  simp [chunkStart]

theorem chunkStart_cons_succ (c : Str) (cs : List Str) (i : Nat) :
    chunkStart (c :: cs) (i + 1) = c.length + chunkStart cs i := by
  simp [chunkStart]

theorem chunksFrom_nth (m : Nat) (hm : 1 ≤ m) :
    ∀ (fuel : Nat) (rest : Str) (i : Nat), rest.length ≤ fuel →
      i + 1 < (chunksFrom m fuel rest).length →
      chunkStart (chunksFrom m fuel rest) i + m < rest.length ∧
      (chunksFrom m fuel rest)[i]?
        = some ((rest.drop (chunkStart (chunksFrom m fuel rest) i)).take
            (cutAt m (rest.drop (chunkStart (chunksFrom m fuel rest) i)))) := by
  intro fuel
  induction fuel with
  | zero => intro rest i _ hi; simp [chunksFrom] at hi
  | succ fuel ih =>
    intro rest i hf hi
    by_cases hs : rest.length ≤ m
    · rw [chunksFrom_succ_short m fuel rest hs] at hi
      simp at hi
    · have hb := cutAt_bounds m rest hm (by omega)
      rw [chunksFrom_succ_long m fuel rest (by omega)] at hi ⊢
      cases i with
      | zero =>
        rw [chunkStart_zero]
        exact ⟨by omega, by simp⟩
      | succ i =>
        have hi' : i + 1 < (chunksFrom m fuel (rest.drop (cutAt m rest))).length := by
          simpa using hi
        obtain ⟨h1, h2⟩ := ih (rest.drop (cutAt m rest)) i (by simp; omega) hi'
        rw [chunkStart_cons_succ, List.length_take, Nat.min_eq_left (by omega)]
        rw [List.length_drop] at h1
        refine ⟨by omega, ?_⟩
        rw [List.getElem?_cons_succ, h2, List.drop_drop]

theorem chunkStart_succ (chunks : List Str) (i : Nat) (c : Str) (h : chunks[i]? = some c) :
    chunkStart chunks (i + 1) = chunkStart chunks i + c.length := by
  induction chunks generalizing i with
  | nil => simp at h
  | cons x xs ih =>
    cases i with
    | zero =>
      simp at h
      simp [chunkStart, h]
    | succ i =>
      rw [List.getElem?_cons_succ] at h
      rw [chunkStart_cons_succ, chunkStart_cons_succ, ih i h]
      omega

theorem splitString_long_eq (T : Str) (m fuel : Nat) (hm : 1 ≤ m) (hlong : m < T.length)
    (hf : T.length ≤ fuel) :
    splitString fuel T (m : Int) = Outcome.ok (chunksFrom m fuel T) := by
  rw [splitString_eq T m fuel hm hf, if_neg (by omega)]

theorem chunksFrom_last (m : Nat) (hm : 1 ≤ m) :
    ∀ (fuel : Nat) (rest : Str), rest ≠ [] → rest.length ≤ fuel →
      ∃ r, (chunksFrom m fuel rest).getLast? = some r ∧ 1 ≤ r.length ∧ r.length ≤ m := by
  intro fuel rest hne hf
  have hpos : 0 < rest.length := List.length_pos.mpr hne
  obtain ⟨f, rfl⟩ : ∃ f, fuel = f + 1 := ⟨fuel - 1, by omega⟩
  have hnil : chunksFrom m (f + 1) rest ≠ [] := by
    by_cases hs : rest.length ≤ m
    · simp [chunksFrom_succ_short m f rest hs]
    · simp [chunksFrom_succ_long m f rest (by omega)]
  refine ⟨(chunksFrom m (f + 1) rest).getLast hnil, List.getLast?_eq_getLast _ hnil, ?_, ?_⟩
  · have := chunksFrom_ne_nil m hm (f + 1) rest hne _ (List.getLast_mem hnil)
    exact List.length_pos.mpr this
  · exact chunksFrom_length_le m hm (f + 1) rest _ (List.getLast_mem hnil)

/-! ## Round trip, ceiling and passthrough -/

/-- C1 (round trip): for every text `T` and every `maxChar ≥ 1`, `splitString`
returns (with fuel for `len(T)` iterations) and the concatenation of its
chunks, in order, is exactly `T`. -/
theorem splitString_roundtrip (T : Str) (maxChar : Int) (fuel : Nat)
    (hm : 1 ≤ maxChar) (hf : T.length ≤ fuel) :
    ∃ chunks, splitString fuel T maxChar = Outcome.ok chunks ∧ chunks.flatten = T := by
  obtain ⟨m, rfl⟩ : ∃ m : Nat, maxChar = (m : Int) := ⟨maxChar.toNat, by omega⟩
  have hm1 : 1 ≤ m := by omega
  refine ⟨_, splitString_eq T m fuel hm1 hf, ?_⟩
  split
  · simp
  · exact chunksFrom_flatten m hm1 fuel T hf

/-- Witness of C1 on the text of `TestSplitString_Long`. -/
theorem splitString_roundtrip_witness :
    ∃ chunks, splitString 26 "あいう、えおかき。くけ,こさし.すせそ\nたちつてとな".toList 5
        = Outcome.ok chunks ∧
      chunks.flatten = "あいう、えおかき。くけ,こさし.すせそ\nたちつてとな".toList :=
  splitString_roundtrip "あいう、えおかき。くけ,こさし.すせそ\nたちつてとな".toList 5 26
    (by decide) (by decide)

/-- C2 (ceiling): for every text `T` and every `maxChar ≥ 1`, `splitString`
returns and every chunk, the final remainder included, has at most `maxChar`
codepoints. -/
theorem splitString_ceiling (T : Str) (maxChar : Int) (fuel : Nat)
    (hm : 1 ≤ maxChar) (hf : T.length ≤ fuel) :
    ∃ chunks, splitString fuel T maxChar = Outcome.ok chunks ∧
      ∀ c ∈ chunks, (c.length : Int) ≤ maxChar := by
  obtain ⟨m, rfl⟩ : ∃ m : Nat, maxChar = (m : Int) := ⟨maxChar.toNat, by omega⟩
  have hm1 : 1 ≤ m := by omega
  refine ⟨_, splitString_eq T m fuel hm1 hf, ?_⟩
  intro c hc
  split at hc
  · simp at hc
    subst hc
    omega
  · exact_mod_cast chunksFrom_length_le m hm1 fuel T c hc

/-- Witness of C2 on the text of `TestSplitString_Long`. -/
theorem splitString_ceiling_witness :
    ∃ chunks, splitString 26 "あいう、えおかき。くけ,こさし.すせそ\nたちつてとな".toList 5
        = Outcome.ok chunks ∧
      ∀ c ∈ chunks, (c.length : Int) ≤ 5 :=
  splitString_ceiling "あいう、えおかき。くけ,こさし.すせそ\nたちつてとな".toList 5 26
    (by decide) (by decide)

/-- C5 (short-input passthrough): whenever the codepoint count of `T` is at
most `maxChar`, `splitString` returns the one-element sequence `[T]`, without
entering the loop (so for any fuel), whatever delimiters `T` contains. -/
theorem splitString_short (T : Str) (maxChar : Int) (fuel : Nat)
    (h : (T.length : Int) ≤ maxChar) :
    splitString fuel T maxChar = Outcome.ok [T] := by
  unfold splitString
  rw [if_pos h]

/-- Witness of C5: the empty text with `maxChar = 10`, a five-codepoint text
with `maxChar = 5`, and a short text made of delimiters only. -/
theorem splitString_short_witness :
    splitString 0 "".toList 10 = Outcome.ok ["".toList] ∧
    splitString 0 "あいうえお".toList 5 = Outcome.ok ["あいうえお".toList] ∧
    splitString 0 "、。\n".toList 3 = Outcome.ok ["、。\n".toList] :=
  ⟨splitString_short "".toList 10 0 (by decide),
   splitString_short "あいうえお".toList 5 0 (by decide),
   splitString_short "、。\n".toList 3 0 (by decide)⟩

/-! ## Where the loop cuts -/

/-- C3 (delimiter preference): for `T` longer than `maxChar ≥ 1`, take any chunk
`i` other than the last; it starts at offset `s = chunkStart chunks i`.  If
index `j` of the window `T[s, s+maxChar)` holds a delimiter `d` and no later
index of the window holds one, the chunk is `T[s, s+j+1)`, which ends with
`d`. -/
theorem splitString_delimiter_preference (T : Str) (maxChar : Int) (fuel : Nat)
    (hm : 1 ≤ maxChar) (hlong : maxChar < (T.length : Int)) (hf : T.length ≤ fuel) :
    ∃ chunks, splitString fuel T maxChar = Outcome.ok chunks ∧
      ∀ (i j : Nat) (d : Char), i + 1 < chunks.length →
        ((T.drop (chunkStart chunks i)).take maxChar.toNat)[j]? = some d →
        isDelimiter d = true →
        (∀ j' d', j < j' →
          ((T.drop (chunkStart chunks i)).take maxChar.toNat)[j']? = some d' →
          isDelimiter d' = false) →
        chunks[i]? = some ((T.drop (chunkStart chunks i)).take (j + 1)) ∧
        ((T.drop (chunkStart chunks i)).take (j + 1)).getLast? = some d := by
  obtain ⟨m, rfl⟩ : ∃ m : Nat, maxChar = (m : Int) := ⟨maxChar.toNat, by omega⟩
  have hm1 : 1 ≤ m := by omega
  refine ⟨_, splitString_long_eq T m fuel hm1 (by omega) hf, ?_⟩
  intro i j d hi hj hd hr
  rw [Int.toNat_ofNat] at hj hr
  obtain ⟨_, h2⟩ := chunksFrom_nth m hm1 fuel T i hf hi
  rw [cutAt_of_rightmost m _ j d hj hd hr] at h2
  refine ⟨h2, ?_⟩
  rw [List.getElem?_take] at hj
  split at hj
  · rw [List.getLast?_eq_getElem?, List.length_take, List.getElem?_take]
    obtain ⟨hlt, _⟩ := List.getElem?_eq_some.mp hj
    rw [Nat.min_eq_left (by omega), if_pos (by omega)]
    simpa using hj
  · simp at hj

/-- Witness of C3 on the text of `TestSplitString_Long`, `maxChar = 5`. -/
theorem splitString_delimiter_preference_witness :
    ∃ chunks, splitString 26 "あいう、えおかき。くけ,こさし.すせそ\nたちつてとな".toList 5
        = Outcome.ok chunks ∧
      ∀ (i j : Nat) (d : Char), i + 1 < chunks.length →
        (("あいう、えおかき。くけ,こさし.すせそ\nたちつてとな".toList.drop
          (chunkStart chunks i)).take (5 : Int).toNat)[j]? = some d →
        isDelimiter d = true →
        (∀ j' d', j < j' →
          (("あいう、えおかき。くけ,こさし.すせそ\nたちつてとな".toList.drop
            (chunkStart chunks i)).take (5 : Int).toNat)[j']? = some d' →
          isDelimiter d' = false) →
        chunks[i]? = some (("あいう、えおかき。くけ,こさし.すせそ\nたちつてとな".toList.drop
          (chunkStart chunks i)).take (j + 1)) ∧
        (("あいう、えおかき。くけ,こさし.すせそ\nたちつてとな".toList.drop
          (chunkStart chunks i)).take (j + 1)).getLast? = some d :=
  splitString_delimiter_preference "あいう、えおかき。くけ,こさし.すせそ\nたちつてとな".toList 5 26
    (by decide) (by decide) (by decide)

/-- C4 (hard cut): for `T` longer than `maxChar ≥ 1`, a chunk other than the
last whose window `T[s, s+maxChar)` holds no delimiter is exactly that window,
of exactly `maxChar` codepoints.  When `T` holds no delimiter at all, chunk `i`
(other than the last) is the block `T[i*maxChar, (i+1)*maxChar)` and the last
chunk is a remainder of `1..maxChar` codepoints. -/
theorem splitString_hard_cut (T : Str) (maxChar : Int) (fuel : Nat)
    (hm : 1 ≤ maxChar) (hlong : maxChar < (T.length : Int)) (hf : T.length ≤ fuel) :
    ∃ chunks, splitString fuel T maxChar = Outcome.ok chunks ∧
      (∀ i : Nat, i + 1 < chunks.length →
        (∀ c ∈ (T.drop (chunkStart chunks i)).take maxChar.toNat, isDelimiter c = false) →
        chunks[i]? = some ((T.drop (chunkStart chunks i)).take maxChar.toNat) ∧
        (((T.drop (chunkStart chunks i)).take maxChar.toNat).length : Int) = maxChar) ∧
      ((∀ c ∈ T, isDelimiter c = false) →
        (∀ i : Nat, i + 1 < chunks.length →
          chunks[i]? = some ((T.drop (i * maxChar.toNat)).take maxChar.toNat) ∧
          (((T.drop (i * maxChar.toNat)).take maxChar.toNat).length : Int) = maxChar) ∧
        ∃ r, chunks.getLast? = some r ∧ 1 ≤ r.length ∧ (r.length : Int) ≤ maxChar) := by
  obtain ⟨m, rfl⟩ : ∃ m : Nat, maxChar = (m : Int) := ⟨maxChar.toNat, by omega⟩
  have hm1 : 1 ≤ m := by omega
  have hlong1 : m < T.length := by omega
  refine ⟨_, splitString_long_eq T m fuel hm1 hlong1 hf, ?_⟩
  simp only [Int.toNat_ofNat]
  have hgen : ∀ i : Nat, i + 1 < (chunksFrom m fuel T).length →
      (∀ c ∈ (T.drop (chunkStart (chunksFrom m fuel T) i)).take m, isDelimiter c = false) →
      (chunksFrom m fuel T)[i]? = some ((T.drop (chunkStart (chunksFrom m fuel T) i)).take m) ∧
      (((T.drop (chunkStart (chunksFrom m fuel T) i)).take m).length : Int) = (m : Int) := by
    intro i hi hnone
    obtain ⟨h1, h2⟩ := chunksFrom_nth m hm1 fuel T i hf hi
    rw [cutAt_of_none m _ hnone] at h2
    refine ⟨h2, ?_⟩
    rw [List.length_take, List.length_drop, Nat.min_eq_left (by omega)]
  refine ⟨hgen, ?_⟩
  intro hfree
  have hwin : ∀ s : Nat, ∀ c ∈ (T.drop s).take m, isDelimiter c = false := fun s c hc =>
    hfree c (List.mem_of_mem_drop (List.mem_of_mem_take hc))
  have hstart : ∀ i : Nat, i + 1 < (chunksFrom m fuel T).length →
      chunkStart (chunksFrom m fuel T) i = i * m := by
    intro i
    induction i with
    | zero => intro _; simp [chunkStart_zero]
    | succ i ih =>
      intro hi
      have hi' : i + 1 < (chunksFrom m fuel T).length := by omega
      obtain ⟨h2, h3⟩ := hgen i hi' (hwin _)
      have hl : ((T.drop (chunkStart (chunksFrom m fuel T) i)).take m).length = m := by
        exact_mod_cast h3
      rw [chunkStart_succ _ i _ h2, hl, ih hi', Nat.succ_mul]
  refine ⟨?_, ?_⟩
  · intro i hi
    have := hgen i hi (hwin _)
    rw [hstart i hi] at this
    exact this
  · have hne : T ≠ [] := by
      intro h0
      rw [h0] at hlong1
      simp at hlong1
    obtain ⟨r, hr, h1, h2⟩ := chunksFrom_last m hm1 fuel T hne hf
    exact ⟨r, hr, h1, by exact_mod_cast h2⟩

/-- Witness of C4: the text and `maxChar = 4` of `TestSplitString_NoDelimita`;
the run returns `["あいうえ", "お"]`. -/
theorem splitString_hard_cut_witness :
    splitString 5 "あいうえお".toList 4 = Outcome.ok ["あいうえ".toList, "お".toList] ∧
    ∃ chunks, splitString 5 "あいうえお".toList 4 = Outcome.ok chunks ∧
      (∀ i : Nat, i + 1 < chunks.length →
        (∀ c ∈ ("あいうえお".toList.drop (chunkStart chunks i)).take (4 : Int).toNat,
          isDelimiter c = false) →
        chunks[i]? = some (("あいうえお".toList.drop (chunkStart chunks i)).take (4 : Int).toNat) ∧
        ((("あいうえお".toList.drop (chunkStart chunks i)).take (4 : Int).toNat).length : Int)
          = 4) ∧
      ((∀ c ∈ "あいうえお".toList, isDelimiter c = false) →
        (∀ i : Nat, i + 1 < chunks.length →
          chunks[i]? = some (("あいうえお".toList.drop (i * (4 : Int).toNat)).take (4 : Int).toNat) ∧
          ((("あいうえお".toList.drop (i * (4 : Int).toNat)).take (4 : Int).toNat).length : Int)
            = 4) ∧
        ∃ r, chunks.getLast? = some r ∧ 1 ≤ r.length ∧ (r.length : Int) ≤ 4) :=
  ⟨by decide, splitString_hard_cut "あいうえお".toList 4 5 (by decide) (by decide) (by decide)⟩

theorem cutAt_of_split (m : Nat) (rest pre : Str) (d : Char) (suf : Str)
    (hw : rest.take m = pre ++ d :: suf) (hd : isDelimiter d = true)
    (hs : ∀ c ∈ suf, isDelimiter c = false) :
    cutAt m rest = pre.length + 1 ∧ rest.take (pre.length + 1) = pre ++ [d] := by
  constructor
  · unfold cutAt
    rw [hw, getIndexByDelimiter_of_last pre d suf hd hs, if_pos (by omega)]
    omega
  · have hlen : pre.length + 1 ≤ m := by
      have := congrArg List.length hw
      rw [List.length_take, List.length_append, List.length_cons] at this
      omega
    have h1 : (rest.take m).take (pre.length + 1) = rest.take (pre.length + 1) := by
      rw [List.take_take, Nat.min_eq_left hlen]
    rw [← h1, hw]
    simp [List.take_append_eq_append_take]

/-- C6, the claim as stated fails: with `maxChar = 4` the delimiter-free text
`あいうえお` is divided after `え`, which is no delimiter; and with
`maxChar = 3` the text `あ，いうえお` is divided after the full-width comma
`，`, a delimiter of the pattern that the claim's list of five leaves out. -/
theorem splitString_only_at_delimiters_counterexample :
    splitString 5 "あいうえお".toList 4 = Outcome.ok ["あいうえ".toList, "お".toList] ∧
    "あいうえ".toList.getLast? = some 'え' ∧
    'え' ∉ [',', '.', '、', '。', '\n'] ∧
    splitString 6 "あ，いうえお".toList 3
      = Outcome.ok ["あ，".toList, "いうえ".toList, "お".toList] ∧
    "あ，".toList.getLast? = some '，' ∧
    '，' ∉ [',', '.', '、', '。', '\n'] := by
  decide

/-- C6 (amended): for every `T` and `maxChar ≥ 1`, every chunk except the last
either ends with a delimiter of the pattern (`,` `.` `、` `。` `，` `．` or
newline) or is a hard cut: exactly `maxChar` codepoints, none of them a
delimiter. -/
theorem splitString_cut_positions (T : Str) (maxChar : Int) (fuel : Nat)
    (hm : 1 ≤ maxChar) (hf : T.length ≤ fuel) :
    ∃ chunks, splitString fuel T maxChar = Outcome.ok chunks ∧
      ∀ (i : Nat) (c : Str), i + 1 < chunks.length → chunks[i]? = some c →
        (∃ d, c.getLast? = some d ∧ isDelimiter d = true) ∨
        ((c.length : Int) = maxChar ∧ ∀ x ∈ c, isDelimiter x = false) := by
  obtain ⟨m, rfl⟩ : ∃ m : Nat, maxChar = (m : Int) := ⟨maxChar.toNat, by omega⟩
  have hm1 : 1 ≤ m := by omega
  refine ⟨_, splitString_eq T m fuel hm1 hf, ?_⟩
  intro i c hi hc
  split at hi
  · simp at hi
  · rename_i hlong
    rw [if_neg hlong] at hc
    obtain ⟨h1, h2⟩ := chunksFrom_nth m hm1 fuel T i hf hi
    rw [h2] at hc
    have hc' := Option.some.inj hc
    rcases last_delimiter_split ((T.drop (chunkStart (chunksFrom m fuel T) i)).take m) with
      hnone | ⟨pre, d, suf, hw, hd, hs⟩
    · right
      rw [cutAt_of_none m _ hnone] at hc'
      subst hc'
      refine ⟨?_, hnone⟩
      rw [List.length_take, List.length_drop, Nat.min_eq_left (by omega)]
    · left
      obtain ⟨e1, e2⟩ := cutAt_of_split m _ pre d suf hw hd hs
      rw [e1, e2] at hc'
      subst hc'
      exact ⟨d, by simp, hd⟩

/-- Witness of C6 (amended) on the text of `TestSplitString_Long`. -/
theorem splitString_cut_positions_witness :
    ∃ chunks, splitString 26 "あいう、えおかき。くけ,こさし.すせそ\nたちつてとな".toList 5
        = Outcome.ok chunks ∧
      ∀ (i : Nat) (c : Str), i + 1 < chunks.length → chunks[i]? = some c →
        (∃ d, c.getLast? = some d ∧ isDelimiter d = true) ∨
        ((c.length : Int) = 5 ∧ ∀ x ∈ c, isDelimiter x = false) :=
  splitString_cut_positions "あいう、えおかき。くけ,こさし.すせそ\nたちつてとな".toList 5 26
    (by decide) (by decide)


/-! ## Facts about replaceAllFunc -/

theorem replaceAllFunc_skip (M : Str → Option Nat) (f : Str → Str) :
    ∀ (l : Str) (k : Nat), replaceAllFunc M f k l = replaceAllFunc M f 0 (l.drop k) := by
  intro l
  induction l with
  | nil => intro k; simp [replaceAllFunc]
  | cons c cs ih =>
    intro k
    cases k with
    | zero => rfl
    | succ k => rw [replaceAllFunc, ih k, List.drop_succ_cons]

theorem replaceAllFunc_nil (M : Str → Option Nat) (f : Str → Str) :
    replaceAllFunc M f 0 [] = [] := rfl

theorem replaceAllFunc_match (M : Str → Option Nat) (f : Str → Str) (c : Char) (cs : Str)
    (n : Nat) (h : M (c :: cs) = some (n + 1)) :
    replaceAllFunc M f 0 (c :: cs)
      = f ((c :: cs).take (n + 1)) ++ replaceAllFunc M f 0 ((c :: cs).drop (n + 1)) := by
  rw [replaceAllFunc, h]
  simp only []
  rw [replaceAllFunc_skip M f cs n, List.drop_succ_cons]

theorem replaceAllFunc_nomatch (M : Str → Option Nat) (f : Str → Str) (c : Char) (cs : Str)
    (h : M (c :: cs) = none) :
    replaceAllFunc M f 0 (c :: cs) = c :: replaceAllFunc M f 0 cs := by
  rw [replaceAllFunc, h]

theorem Inserted.refl (ok : Char → Prop) : ∀ x : Str, Inserted ok x x
  | [] => Inserted.nil
  | c :: cs => Inserted.keep c (Inserted.refl ok cs)

theorem Inserted.append {ok : Char → Prop} {x y x2 y2 : Str}
    (h : Inserted ok x y) (h2 : Inserted ok x2 y2) : Inserted ok (x ++ x2) (y ++ y2) := by
  induction h with
  | nil => simpa using h2
  | keep c _ ih => exact Inserted.keep c ih
  | add c hc _ ih => exact Inserted.add c hc ih

theorem Inserted.all_added {ok : Char → Prop} : ∀ (e : Str), (∀ c ∈ e, ok c) →
    Inserted ok [] e
  | [], _ => Inserted.nil
  | c :: cs, h =>
    Inserted.add c (h c (List.mem_cons_self _ _))
      (Inserted.all_added cs (fun a ha => h a (List.mem_cons_of_mem _ ha)))

theorem Inserted.trans {ok : Char → Prop} {x y z : Str}
    (h1 : Inserted ok x y) (h2 : Inserted ok y z) : Inserted ok x z := by
  induction h2 generalizing x with
  | nil => exact h1
  | keep c _ ih =>
    cases h1 with
    | keep _ h => exact Inserted.keep c (ih h)
    | add _ hc h => exact Inserted.add c hc (ih h)
  | add c hc _ ih => exact Inserted.add c hc (ih h1)

/-- A replacement pass whose replacement function only appends admissible
codepoints to the matched text is an insertion. -/
theorem inserted_replaceAllFunc (ok : Char → Prop) (M : Str → Option Nat) (f : Str → Str)
    (hf : ∀ s n, M s = some (n + 1) →
      ∃ e, f (s.take (n + 1)) = s.take (n + 1) ++ e ∧ ∀ c ∈ e, ok c)
    (h0 : ∀ s, M s ≠ some 0) :
    ∀ (k : Nat) (l : Str), l.length ≤ k → Inserted ok l (replaceAllFunc M f 0 l) := by
  intro k
  induction k with
  | zero =>
    intro l hl
    have : l = [] := List.eq_nil_of_length_eq_zero (by omega)
    subst this
    exact Inserted.nil
  | succ k ih =>
    intro l hl
    cases l with
    | nil => exact Inserted.nil
    | cons c cs =>
      cases hm : M (c :: cs) with
      | none =>
        rw [replaceAllFunc_nomatch M f c cs hm]
        exact Inserted.keep c (ih cs (by simpa using hl))
      | some n =>
        cases n with
        | zero => exact absurd hm (h0 _)
        | succ n =>
          rw [replaceAllFunc_match M f c cs n hm]
          obtain ⟨e, he, hok⟩ := hf (c :: cs) n hm
          rw [he]
          have hrec := ih ((c :: cs).drop (n + 1)) (by simp at hl ⊢; omega)
          have h1 : Inserted ok ((c :: cs).take (n + 1)) ((c :: cs).take (n + 1) ++ e) := by
            have := Inserted.append (Inserted.refl ok ((c :: cs).take (n + 1)))
              (Inserted.all_added e hok)
            simpa using this
          have := Inserted.append h1 hrec
          rwa [List.take_append_drop] at this

theorem inserted_cancel_left {ok : Char → Prop} : ∀ (q : Str) {x suf : Str},
    Inserted ok x (q ++ suf) → (∀ c ∈ q, ¬ ok c) → ∃ x2, x = q ++ x2 ∧ Inserted ok x2 suf := by
  intro q
  induction q with
  | nil => intro x suf h _; exact ⟨x, rfl, h⟩
  | cons a q ih =>
    intro x suf h hq
    cases h with
    | keep _ h =>
      obtain ⟨x2, rfl, h2⟩ := ih h (fun c hc => hq c (List.mem_cons_of_mem _ hc))
      exact ⟨x2, rfl, h2⟩
    | add _ hc _ => exact absurd hc (hq a (List.mem_cons_self _ _))

theorem inserted_split {ok : Char → Prop} : ∀ (pre : Str) {x rest : Str},
    Inserted ok x (pre ++ rest) → ∃ x1 x2, x = x1 ++ x2 ∧ Inserted ok x2 rest := by
  intro pre
  induction pre with
  | nil => intro x rest h; exact ⟨[], x, rfl, h⟩
  | cons a pre ih =>
    intro x rest h
    cases h with
    | keep _ h =>
      obtain ⟨x1, x2, rfl, h2⟩ := ih h
      exact ⟨a :: x1, x2, rfl, h2⟩
    | add _ _ h => exact ih h

theorem newlineAfter_of_inserted (q : Str) {x y : Str}
    (h : Inserted (fun c => c = '\n') x y) (hq : ∀ c ∈ q, c ≠ '\n')
    (hx : NewlineAfter q x) : NewlineAfter q y := by
  intro pre suf hy
  subst hy
  rw [List.append_assoc] at h
  obtain ⟨x1, x2, rfl, h2⟩ := inserted_split pre h
  obtain ⟨x3, rfl, h3⟩ := inserted_cancel_left q h2 hq
  obtain ⟨x4, rfl⟩ := hx x1 x3 (by simp)
  cases h3 with
  | keep _ _ => exact ⟨_, rfl⟩
  | add c hc _ => exact ⟨_, by rw [hc]⟩

theorem occurrence_after_free : ∀ (t : Str) {r pre w : Str}, (∀ c ∈ t, c ≠ '<') →
    t ++ r = pre ++ '<' :: w → ∃ pre2, r = pre2 ++ '<' :: w := by
  intro t
  induction t with
  | nil => intro r pre w _ h; exact ⟨pre, by simpa using h⟩
  | cons a t ih =>
    intro r pre w ht h
    cases pre with
    | nil =>
      simp at h
      exact absurd h.1 (ht a (List.mem_cons_self _ _))
    | cons p pre =>
      simp at h
      exact ih (fun c hc => ht c (List.mem_cons_of_mem _ hc)) h.2

/-- A pass that appends a newline to every match of a pattern `M` leaves
every occurrence of a text `q` that `M` matches followed by a newline. -/
theorem newlineAfter_replaceAllFunc (M : Str → Option Nat) (q q2 : Str)
    (hq : q = '<' :: q2) (hqn : ∀ c ∈ q, c ≠ '\n')
    (hM1 : ∀ s, q <+: s → M s = some q.length)
    (hM2 : ∀ s n, M s = some n → 1 ≤ n ∧ ∀ c ∈ (s.take n).tail, c ≠ '<') :
    ∀ (k : Nat) (l : Str), l.length ≤ k →
      NewlineAfter q (replaceAllFunc M (fun s => s ++ ['\n']) 0 l) := by
  have hins : ∀ l : Str, Inserted (fun c => c = '\n') l
      (replaceAllFunc M (fun s => s ++ ['\n']) 0 l) := fun l =>
    inserted_replaceAllFunc _ M _ (fun s n _ => ⟨['\n'], rfl, by simp⟩)
      (fun s h => by have := (hM2 s 0 h).1; omega) l.length l (le_refl _)
  intro k
  induction k with
  | zero =>
    intro l hl pre suf hy
    have : l = [] := List.eq_nil_of_length_eq_zero (by omega)
    subst this
    rw [replaceAllFunc_nil, hq] at hy
    simp at hy
  | succ k ih =>
    intro l hl
    cases l with
    | nil =>
      intro pre suf hy
      rw [replaceAllFunc_nil, hq] at hy
      simp at hy
    | cons c cs =>
      intro pre suf hy
      have hI := hins (c :: cs)
      cases hm : M (c :: cs) with
      | none =>
        rw [replaceAllFunc_nomatch M _ c cs hm] at hy hI
        cases pre with
        | nil =>
          rw [hy, List.nil_append] at hI
          obtain ⟨x2, hx2, _⟩ := inserted_cancel_left q hI hqn
          have := hM1 (c :: cs) ⟨x2, hx2.symm⟩
          rw [hm] at this
          exact absurd this (by simp)
        | cons p pre =>
          simp only [List.cons_append, List.cons.injEq] at hy
          exact ih cs (by simpa using hl) pre suf (by simpa using hy.2)
      | some n =>
        obtain ⟨hn1, hfree⟩ := hM2 (c :: cs) n hm
        obtain ⟨n, rfl⟩ : ∃ n2, n = n2 + 1 := ⟨n - 1, by omega⟩
        rw [replaceAllFunc_match M _ c cs n hm] at hy hI
        cases pre with
        | nil =>
          rw [hy, List.nil_append] at hI
          obtain ⟨x2, hx2, _⟩ := inserted_cancel_left q hI hqn
          have hlen := hM1 (c :: cs) ⟨x2, hx2.symm⟩
          rw [hm] at hlen
          have hlen2 : n + 1 = q.length := by simpa using hlen
          have htake : (c :: cs).take (n + 1) = q := by
            rw [hx2, hlen2]; simp
          rw [htake] at hy
          simp only [List.nil_append, List.append_assoc, List.append_cancel_left_eq] at hy
          exact ⟨_, by rw [← hy]; rfl⟩
        | cons p pre =>
          rw [List.take_succ_cons] at hy hfree
          simp only [List.cons_append, List.cons.injEq, List.tail_cons, List.append_assoc,
            hq] at hy hfree
          obtain ⟨pre2, h2⟩ := occurrence_after_free (cs.take n) hfree hy.2
          cases pre2 with
          | nil => simp at h2
          | cons a pre2 =>
            simp only [List.cons_append, List.cons.injEq, List.singleton_append] at h2
            refine ih ((c :: cs).drop (n + 1)) (by simp at hl ⊢; omega) pre2 suf ?_
            rw [hq]
            simpa using h2.2

theorem replaceAllFunc_congr (M : Str → Option Nat) (f g : Str → Str)
    (hfg : ∀ s n, M s = some (n + 1) → f (s.take (n + 1)) = g (s.take (n + 1))) :
    ∀ (l : Str) (k : Nat), replaceAllFunc M f k l = replaceAllFunc M g k l := by
  intro l
  induction l with
  | nil => intro k; simp [replaceAllFunc]
  | cons c cs ih =>
    intro k
    cases k with
    | succ k => rw [replaceAllFunc, replaceAllFunc, ih k]
    | zero =>
      rw [replaceAllFunc, replaceAllFunc]
      cases hm : M (c :: cs) with
      | none => simp [ih]
      | some n =>
        cases n with
        | zero => simp [ih]
        | succ n => simp only [ih, hfg _ _ hm]

theorem matchLiteral_at_occurrence (old s : Str) (h : old <+: s) :
    matchLiteral old s = some old.length := by
  unfold matchLiteral
  rw [if_pos (List.isPrefixOf_iff_prefix.mpr h)]

theorem matchLiteral_some (old s : Str) (n : Nat) (h : matchLiteral old s = some n) :
    n = old.length ∧ s.take n = old := by
  unfold matchLiteral at h
  split at h
  · rename_i hp
    have hn : old.length = n := by simpa using h
    subst hn
    exact ⟨rfl, (List.prefix_iff_eq_take.mp (List.isPrefixOf_iff_prefix.mp hp)).symm⟩
  · simp at h

/-- Appending a newline to a literal by `strings.ReplaceAll` leaves every
occurrence of the literal followed by a newline. -/
theorem newlineAfter_stringsReplaceAll (old old2 : Str) (hq : old = '<' :: old2)
    (hq2 : ∀ c ∈ old2, c ≠ '<') (hqn : ∀ c ∈ old, c ≠ '\n') (l : Str) :
    NewlineAfter old (stringsReplaceAll old (old ++ ['\n']) l) := by
  have hc : stringsReplaceAll old (old ++ ['\n']) l
      = replaceAllFunc (matchLiteral old) (fun s => s ++ ['\n']) 0 l := by
    unfold stringsReplaceAll
    apply replaceAllFunc_congr
    intro s n h
    rw [(matchLiteral_some old s _ h).2]
  rw [hc]
  refine newlineAfter_replaceAllFunc (matchLiteral old) old old2 hq hqn
    (matchLiteral_at_occurrence old) ?_ l.length l (le_refl _)
  intro s n h
  obtain ⟨h1, h2⟩ := matchLiteral_some old s n h
  rw [h2, hq]
  refine ⟨by rw [h1, hq]; simp, ?_⟩
  simpa using hq2

theorem inserted_stringsReplaceAll (old : Str) (hne : old ≠ []) (l : Str) :
    Inserted (fun c => c = '\n') l (stringsReplaceAll old (old ++ ['\n']) l) := by
  unfold stringsReplaceAll
  refine inserted_replaceAllFunc _ _ _ ?_ ?_ l.length l (le_refl _)
  · intro s n h
    exact ⟨['\n'], by rw [(matchLiteral_some old s _ h).2], by simp⟩
  · intro s h
    have := (matchLiteral_some old s 0 h).1
    exact hne (List.eq_nil_of_length_eq_zero this.symm)

theorem matchHeadingClose_some (s : Str) (n : Nat) (h : matchHeadingClose s = some n) :
    1 ≤ n ∧ ∀ c ∈ (s.take n).tail, c ≠ '<' := by
  rcases s with _ | ⟨a, _ | ⟨b, _ | ⟨c, _ | ⟨d, _ | ⟨e, r⟩⟩⟩⟩⟩ <;>
    simp only [matchHeadingClose] at h <;> try cases h
  split at h
  · rename_i hc
    obtain ⟨_, hb, hc3, ⟨hd1, hd2⟩, he⟩ := hc
    have hn : 5 = n := by simpa using h
    subst hn
    refine ⟨by omega, ?_⟩
    intro x hx
    simp only [List.take_succ_cons, List.take_zero, List.tail_cons, List.mem_cons,
      List.mem_singleton, List.not_mem_nil, or_false] at hx
    rcases hx with rfl | rfl | rfl | rfl
    · rw [hb]; decide
    · rw [hc3]; decide
    · intro h0
      rw [h0] at hd2
      exact absurd hd2 (by decide)
    · rw [he]; decide
  · simp at h

theorem matchHeadingClose_at_occurrence (N : Nat) (h1 : 1 ≤ N) (h8 : N ≤ 8) (s : Str)
    (h : headingClose N <+: s) : matchHeadingClose s = some (headingClose N).length := by
  obtain ⟨r, rfl⟩ := h
  interval_cases N <;> simp [headingClose, matchHeadingClose, Nat.digitChar]

theorem headingClose_no_newline (N : Nat) (h1 : 1 ≤ N) (h8 : N ≤ 8) :
    ∀ c ∈ headingClose N, c ≠ '\n' := by
  interval_cases N <;> decide

/-! ## Forced line breaks -/

/-- C9 (forced line breaks): in `addPause x`, for every input `x`, every
occurrence of `</p>`, of `<br>` and of a heading closing tag `</hN>` with `N`
in `1..8` is immediately followed by a newline. -/
theorem addPause_forced_breaks (x tag pre suf : Str)
    (htag : tag = "</p>".toList ∨ tag = "<br>".toList ∨
      ∃ N : Nat, 1 ≤ N ∧ N ≤ 8 ∧ tag = headingClose N)
    (h : addPause x = pre ++ tag ++ suf) :
    ∃ suf2, suf = '\n' :: suf2 := by
  unfold addPause at h
  simp only [] at h
  generalize replaceAllFunc (matchTagged "<span>".toList "</span>".toList) padSpan 0
    (List.foldl (fun inp i => padHeadings i inp) x (List.range' 1 6)) = y0 at h
  have hp := newlineAfter_stringsReplaceAll "</p>".toList "/p>".toList rfl (by decide)
    (by decide) y0
  have hI2 : ∀ l : Str, Inserted (fun c => c = '\n') l
      (replaceAllFunc matchHeadingClose (fun s => s ++ ['\n']) 0 l) := fun l =>
    inserted_replaceAllFunc _ _ _ (fun s n _ => ⟨['\n'], rfl, by simp⟩)
      (fun s h0 => by have := (matchHeadingClose_some s 0 h0).1; omega) l.length l (le_refl _)
  have hI3 := inserted_stringsReplaceAll "<br>".toList (by decide)
  have e1 : "</p>\n".toList = "</p>".toList ++ ['\n'] := rfl
  have e2 : "<br>\n".toList = "<br>".toList ++ ['\n'] := rfl
  rw [e1, e2] at h
  rcases htag with rfl | rfl | ⟨N, h1, h8, rfl⟩
  · exact newlineAfter_of_inserted _ (hI3 _) (by decide)
      (newlineAfter_of_inserted _ (hI2 _) (by decide) hp) pre suf h
  · exact newlineAfter_stringsReplaceAll "<br>".toList "br>".toList rfl (by decide)
      (by decide) _ pre suf h
  · refine newlineAfter_of_inserted _ (hI3 _) (headingClose_no_newline N h1 h8) ?_ pre suf h
    exact newlineAfter_replaceAllFunc matchHeadingClose (headingClose N) _ rfl
      (headingClose_no_newline N h1 h8) (matchHeadingClose_at_occurrence N h1 h8)
      matchHeadingClose_some _ _ (le_refl _)

/-- Witness of C9 on the input of `TestAddPause`: the first `</p>` of the
output. -/
theorem addPause_forced_breaks_witness :
    addPause "<h1>見出し</h1><p>本文と<br>改行</p><p>本文と<span>目立つ文字</span></p>".toList
      = "<h1>見出し　　　　　　　　　　　　　　　　　　</h1>\n<p>本文と<br>\n改行".toList
        ++ "</p>".toList ++ "\n<p>本文と<span>目立つ文字　　</span></p>\n".toList ∧
    ∃ suf2, "\n<p>本文と<span>目立つ文字　　</span></p>\n".toList = '\n' :: suf2 :=
  ⟨by decide,
   addPause_forced_breaks
    "<h1>見出し</h1><p>本文と<br>改行</p><p>本文と<span>目立つ文字</span></p>".toList
    "</p>".toList
    "<h1>見出し　　　　　　　　　　　　　　　　　　</h1>\n<p>本文と<br>\n改行".toList
    "\n<p>本文と<span>目立つ文字　　</span></p>\n".toList
    (Or.inl rfl) (by decide)⟩

/-! ## Tag stripping -/

theorem noTag_of_infix {l l2 : Str} (h : NoTag l) (hi : l2 <:+: l) : NoTag l2 := by
  obtain ⟨a, b, rfl⟩ := hi
  intro pre suf hl hmem
  subst hl
  exact h (a ++ pre) (suf ++ b) (by simp) (List.mem_append_left _ hmem)

theorem mem_of_mem_erased (M : Str → Option Nat) :
    ∀ (k : Nat) (l : Str), l.length ≤ k →
      ∀ c ∈ replaceAllFunc M (fun _ => []) 0 l, c ∈ l := by
  intro k
  induction k with
  | zero =>
    intro l hl c hc
    have : l = [] := List.eq_nil_of_length_eq_zero (by omega)
    subst this
    simp [replaceAllFunc] at hc
  | succ k ih =>
    intro l hl c hc
    cases l with
    | nil => simp [replaceAllFunc] at hc
    | cons a cs =>
      cases hm : M (a :: cs) with
      | none =>
        rw [replaceAllFunc_nomatch M _ a cs hm] at hc
        rcases List.mem_cons.mp hc with rfl | hc
        · exact List.mem_cons_self _ _
        · exact List.mem_cons_of_mem _ (ih cs (by simpa using hl) c hc)
      | some n =>
        cases n with
        | zero =>
          rw [replaceAllFunc, hm] at hc
          rcases List.mem_cons.mp hc with rfl | hc
          · exact List.mem_cons_self _ _
          · exact List.mem_cons_of_mem _ (ih cs (by simpa using hl) c hc)
        | succ n =>
          rw [replaceAllFunc_match M _ a cs n hm, List.nil_append] at hc
          exact List.mem_of_mem_drop (ih _ (by simp at hl ⊢; omega) c hc)

theorem noTag_cons_of_ne {c : Char} {l : Str} (hc : c ≠ '<') (h : NoTag l) : NoTag (c :: l) := by
  intro pre suf hl
  cases pre with
  | nil =>
    simp at hl
    exact absurd hl.1 hc
  | cons p pre =>
    simp at hl
    exact h pre suf hl.2

theorem noTag_cons_of_not_mem {c : Char} {l : Str} (hl : '>' ∉ l) : NoTag (c :: l) := by
  intro pre suf h hmem
  apply hl
  cases pre with
  | nil =>
    simp at h
    rw [h.2]
    exact hmem
  | cons p pre =>
    simp at h
    rw [h.2]
    simp [hmem]

/-- After the pass that deletes every match of `<[^>]*>`, no `<` is followed
by a `>`. -/
theorem noTag_strip : ∀ (k : Nat) (l : Str), l.length ≤ k →
    NoTag (replaceAllFunc matchTag (fun _ => []) 0 l) := by
  intro k
  induction k with
  | zero =>
    intro l hl
    have : l = [] := List.eq_nil_of_length_eq_zero (by omega)
    subst this
    intro pre suf h
    simp [replaceAllFunc] at h
  | succ k ih =>
    intro l hl
    cases l with
    | nil =>
      intro pre suf h
      simp [replaceAllFunc] at h
    | cons c cs =>
      by_cases hm : c = '<' ∧ '>' ∈ cs
      · have hmt : matchTag (c :: cs)
            = some ((1 + (cs.takeWhile (· ≠ '>')).length) + 1) := by
          simp only [matchTag]
          rw [if_pos hm]
        rw [replaceAllFunc_match matchTag _ c cs _ hmt, List.nil_append]
        exact ih _ (by simp at hl ⊢; omega)
      · have hmt : matchTag (c :: cs) = none := by
          simp only [matchTag]
          rw [if_neg hm]
        rw [replaceAllFunc_nomatch matchTag _ c cs hmt]
        have hrec := ih cs (by simpa using hl)
        by_cases hc : c = '<'
        · have hgt : '>' ∉ cs := fun h => hm ⟨hc, h⟩
          exact noTag_cons_of_not_mem
            (fun h => hgt (mem_of_mem_erased matchTag cs.length cs (le_refl _) _ h))
        · exact noTag_cons_of_ne hc hrec

theorem removeBlankLines_suffix (l : Str) : removeBlankLines l <:+ l := by
  unfold removeBlankLines
  split
  · exact List.drop_suffix _ _
  · exact List.suffix_refl _

theorem noTag_xhtml2txt (x : Str) : NoTag (xhtml2txt x) := by
  unfold xhtml2txt trimRightNewlines
  simp only []
  refine noTag_of_infix (noTag_strip _ (addPause x) (le_refl _)) ?_
  exact List.IsInfix.trans (List.rdropWhile_prefix _ _).isInfix
    (removeBlankLines_suffix _).isInfix

theorem noTag_index {l : Str} (h : NoTag l) (i j : Nat) (hij : i < j)
    (hi : l[i]? = some '<') : l[j]? ≠ some '>' := by
  intro hj
  obtain ⟨hlt, hget⟩ := List.getElem?_eq_some.mp hi
  have hsplit : l = l.take i ++ '<' :: l.drop (i + 1) := by
    rw [← hget, ← List.drop_eq_getElem_cons hlt, List.take_append_drop]
  refine h _ _ hsplit (List.mem_iff_getElem?.mpr ⟨j - (i + 1), ?_⟩)
  have e : i + 1 + (j - (i + 1)) = j := by omega
  rw [List.getElem?_drop, e, hj]

/-- C10 (tag stripping is complete): for every input `x` the text
`xhtml2txt x` has no `<` that is followed, anywhere later, by a `>`; so it has
no substring made of `<`, codepoints other than `>`, and `>`. -/
theorem xhtml2txt_no_tag (x : Str) :
    (∀ pre mid suf : Str, xhtml2txt x ≠ pre ++ '<' :: mid ++ '>' :: suf) ∧
    (∀ i j : Nat, i < j → (xhtml2txt x)[i]? = some '<' → (xhtml2txt x)[j]? ≠ some '>') := by
  have h := noTag_xhtml2txt x
  generalize xhtml2txt x = out at h
  constructor
  · intro pre mid suf he
    exact h pre (mid ++ '>' :: suf) (by simpa using he) (by simp)
  · intro i j hij hi
    exact noTag_index h i j hij hi

/-- Instance of C10 on an input with tags, a stray `>` and a stray `<`: the
tags are gone and the `<` that is left is followed by no `>`. -/
theorem xhtml2txt_no_tag_witness :
    xhtml2txt "1 > 0 <p class=\"a\">x<br>y</p> a < b".toList = "1 > 0 x\ny\n a < b".toList ∧
    (∀ pre mid suf : Str,
      xhtml2txt "1 > 0 <p class=\"a\">x<br>y</p> a < b".toList
        ≠ pre ++ '<' :: mid ++ '>' :: suf) ∧
    (∀ i j : Nat, i < j →
      (xhtml2txt "1 > 0 <p class=\"a\">x<br>y</p> a < b".toList)[i]? = some '<' →
      (xhtml2txt "1 > 0 <p class=\"a\">x<br>y</p> a < b".toList)[j]? ≠ some '>') :=
  ⟨by decide, xhtml2txt_no_tag "1 > 0 <p class=\"a\">x<br>y</p> a < b".toList⟩

/-! ## Padding of a single heading or span -/

theorem replaceAllFunc_skip_free (M : Str → Option Nat) (f : Str → Str)
    (hM : ∀ a as, a ≠ '<' → M (a :: as) = none) :
    ∀ (u rest : Str), (∀ c ∈ u, c ≠ '<') →
      replaceAllFunc M f 0 (u ++ rest) = u ++ replaceAllFunc M f 0 rest := by
  intro u
  induction u with
  | nil => intro rest _; rfl
  | cons a u ih =>
    intro rest hu
    rw [List.cons_append, replaceAllFunc_nomatch M f a _ (hM a _ (hu a (List.mem_cons_self _ _))),
      ih rest (fun c hc => hu c (List.mem_cons_of_mem _ hc)), List.cons_append]

/-- A pass leaves a text with two `<` unchanged when its pattern, which has to
start with `<`, matches at neither of them. -/
theorem replaceAllFunc_no_match (M : Str → Option Nat) (f : Str → Str)
    (hM : ∀ a as, a ≠ '<' → M (a :: as) = none) (a b : Str)
    (ha : ∀ c ∈ a, c ≠ '<') (hb : ∀ c ∈ b, c ≠ '<')
    (h1 : M ('<' :: (a ++ '<' :: b)) = none) (h2 : M ('<' :: b) = none) :
    replaceAllFunc M f 0 ('<' :: (a ++ '<' :: b)) = '<' :: (a ++ '<' :: b) := by
  rw [replaceAllFunc_nomatch M f _ _ h1, replaceAllFunc_skip_free M f hM a _ ha,
    replaceAllFunc_nomatch M f _ _ h2]
  have := replaceAllFunc_skip_free M f hM b [] hb
  rw [List.append_nil, replaceAllFunc_nil, List.append_nil] at this
  rw [this]

theorem matchTagged_head (o2 close : Str) (a : Char) (as : Str) (ha : a ≠ '<') :
    matchTagged ('<' :: o2) close (a :: as) = none := by
  unfold matchTagged
  rw [if_neg]
  simp [List.isPrefixOf, Ne.symm ha]

theorem matchLiteral_head (o2 : Str) (a : Char) (as : Str) (ha : a ≠ '<') :
    matchLiteral ('<' :: o2) (a :: as) = none := by
  unfold matchLiteral
  rw [if_neg]
  simp [List.isPrefixOf, Ne.symm ha]

theorem matchHeadingClose_head (a : Char) (as : Str) (ha : a ≠ '<') :
    matchHeadingClose (a :: as) = none := by
  rcases as with _ | ⟨b, _ | ⟨c, _ | ⟨d, _ | ⟨e, r⟩⟩⟩⟩ <;> simp [matchHeadingClose, ha]

theorem lazyUntil_content (cl2 rest : Str) (hp : cl2 <+: rest) : ∀ (c : Str),
    (∀ x ∈ c, x ≠ '<' ∧ x ≠ '\n') →
    lazyUntil ('<' :: cl2) (c ++ '<' :: rest) = some c.length := by
  intro c
  induction c with
  | nil =>
    intro _
    simp only [List.nil_append, lazyUntil, List.length_nil]
    rw [if_pos]
    have : ('<' :: cl2) <+: ('<' :: rest) := by
      obtain ⟨r, rfl⟩ := hp
      exact ⟨r, by simp⟩
    exact List.isPrefixOf_iff_prefix.mpr this
  | cons a c ih =>
    intro hc
    obtain ⟨h1, h2⟩ := hc a (List.mem_cons_self _ _)
    have := ih (fun x hx => hc x (List.mem_cons_of_mem _ hx))
    rw [List.cons_append, lazyUntil, if_neg (by simp [List.isPrefixOf, Ne.symm h1]),
      if_neg h2, this]
    rfl

/-- A pass for `open(.*?)close` applied to exactly `open ++ c ++ close`, with
`c` free of `<` and of newlines, replaces the whole text. -/
theorem replaceAllFunc_tagged_match (o2 cl2 : Str) (f : Str → Str) (c : Str)
    (hc : ∀ x ∈ c, x ≠ '<' ∧ x ≠ '\n') :
    replaceAllFunc (matchTagged ('<' :: o2) ('<' :: cl2)) f 0
        ('<' :: (o2 ++ (c ++ '<' :: cl2)))
      = f ('<' :: (o2 ++ (c ++ '<' :: cl2))) := by
  have hm : matchTagged ('<' :: o2) ('<' :: cl2) ('<' :: (o2 ++ (c ++ '<' :: cl2)))
      = some ((o2.length + 1 + c.length + cl2.length) + 1) := by
    unfold matchTagged
    have hpre : ('<' :: o2) <+: ('<' :: (o2 ++ (c ++ '<' :: cl2))) := ⟨c ++ '<' :: cl2, by simp⟩
    rw [if_pos (List.isPrefixOf_iff_prefix.mpr hpre)]
    have hdrop : List.drop ('<' :: o2).length ('<' :: (o2 ++ (c ++ '<' :: cl2)))
        = c ++ '<' :: cl2 := by simp
    rw [hdrop, lazyUntil_content cl2 cl2 (List.prefix_refl _) c hc]
    simp only [Option.map_some', List.length_cons]
    rfl
  rw [replaceAllFunc_match _ f _ _ _ hm]
  have hlen : ('<' :: (o2 ++ (c ++ '<' :: cl2))).length
      = (o2.length + 1 + c.length + cl2.length) + 1 := by
    simp only [List.length_cons, List.length_append]
    omega
  rw [← hlen, List.take_length, List.drop_length, replaceAllFunc_nil, List.append_nil]

theorem padHeading_tagged (i N : Nat) (c : Str) :
    padHeading i (headingOpen N ++ c ++ headingClose N)
      = headingOpen N ++ (c ++ List.replicate (18 - 2 * (i - 1)) pauseChar)
          ++ headingClose N := by
  have h1 : (headingOpen N ++ c ++ headingClose N).length - 5 = c.length + 4 := by
    simp [headingOpen, headingClose]
  have h2 : headingOpen N ++ c ++ headingClose N
      = ('<' :: 'h' :: Nat.digitChar N :: '>' :: c) ++ headingClose N := by
    simp [headingOpen]
  have h3 : ('<' :: 'h' :: Nat.digitChar N :: '>' :: c).length = c.length + 4 := by simp
  have ht : List.take (c.length + 4)
      (('<' :: 'h' :: Nat.digitChar N :: '>' :: c) ++ headingClose N)
      = '<' :: 'h' :: Nat.digitChar N :: '>' :: c := List.take_left' h3
  have hd : List.drop (c.length + 4)
      (('<' :: 'h' :: Nat.digitChar N :: '>' :: c) ++ headingClose N)
      = headingClose N := List.drop_left' h3
  simp only [padHeading, h1]
  rw [h2, ht, hd]
  simp [headingOpen]

theorem padSpan_tagged (c : Str) :
    padSpan ("<span>".toList ++ c ++ "</span>".toList)
      = "<span>".toList ++ c ++ [pauseChar, pauseChar] ++ "</span>".toList := by
  have h1 : ("<span>".toList ++ c ++ "</span>".toList).length - 7 = c.length + 6 := by
    simp
  have h3 : ("<span>".toList ++ c).length = c.length + 6 := by simp
  have ht : List.take (c.length + 6) (("<span>".toList ++ c) ++ "</span>".toList)
      = "<span>".toList ++ c := List.take_left' h3
  simp only [padSpan, h1]
  rw [ht]
  simp

theorem headingText_shape (N : Nat) (u tail : Str) :
    headingOpen N ++ u ++ (headingClose N ++ tail)
      = '<' :: ((['h', Nat.digitChar N, '>'] ++ u)
          ++ '<' :: ('/' :: 'h' :: Nat.digitChar N :: '>' :: tail)) := by
  simp [headingOpen, headingClose]

/-- A pass whose pattern starts with `<` and matches at neither `<` of
`<hN>u</hN>tail` leaves that text unchanged. -/
theorem replaceAllFunc_heading_unchanged (M : Str → Option Nat) (f : Str → Str)
    (hM : ∀ a as, a ≠ '<' → M (a :: as) = none) (N : Nat) (hN : Nat.digitChar N ≠ '<')
    (u tail : Str) (hu : ∀ x ∈ u, x ≠ '<') (ht : ∀ x ∈ tail, x ≠ '<')
    (h1 : ∀ r, M ('<' :: 'h' :: Nat.digitChar N :: r) = none)
    (h2 : ∀ r, M ('<' :: '/' :: 'h' :: r) = none) :
    replaceAllFunc M f 0 (headingOpen N ++ u ++ (headingClose N ++ tail))
      = headingOpen N ++ u ++ (headingClose N ++ tail) := by
  rw [headingText_shape]
  refine replaceAllFunc_no_match M f hM _ _ ?_ ?_ (h1 _) (h2 _)
  · intro x hx
    simp only [List.cons_append, List.nil_append, List.mem_cons] at hx
    rcases hx with rfl | rfl | rfl | hx
    · decide
    · exact hN
    · decide
    · exact hu x hx
  · intro x hx
    simp only [List.mem_cons] at hx
    rcases hx with rfl | rfl | rfl | rfl | hx
    · decide
    · decide
    · exact hN
    · decide
    · exact ht x hx

theorem padHeadings_other (i N : Nat) (hne : Nat.digitChar i ≠ Nat.digitChar N)
    (hN : Nat.digitChar N ≠ '<') (u : Str) (hu : ∀ x ∈ u, x ≠ '<') :
    padHeadings i (headingOpen N ++ u ++ headingClose N)
      = headingOpen N ++ u ++ headingClose N := by
  have := replaceAllFunc_heading_unchanged
    (matchTagged (headingOpen i) (headingClose i)) (padHeading i)
    (fun a as ha => matchTagged_head _ _ a as ha) N hN u [] hu (by simp)
    (by intro r; simp [matchTagged, headingOpen, List.isPrefixOf, hne])
    (by intro r; simp [matchTagged, headingOpen, List.isPrefixOf])
  simpa [padHeadings] using this

theorem padHeadings_same (N : Nat) (u : Str) (hu : ∀ x ∈ u, x ≠ '<' ∧ x ≠ '\n') :
    padHeadings N (headingOpen N ++ u ++ headingClose N)
      = headingOpen N ++ (u ++ List.replicate (18 - 2 * (N - 1)) pauseChar)
          ++ headingClose N := by
  have hs : headingOpen N ++ u ++ headingClose N
      = '<' :: (['h', Nat.digitChar N, '>'] ++ (u ++ '<' :: ['/', 'h', Nat.digitChar N, '>'])) := by
    simp [headingOpen, headingClose]
  have ho : headingOpen N = '<' :: ['h', Nat.digitChar N, '>'] := rfl
  have hcl : headingClose N = '<' :: ['/', 'h', Nat.digitChar N, '>'] := rfl
  unfold padHeadings
  rw [hs]
  conv_lhs => rw [ho, hcl]
  rw [replaceAllFunc_tagged_match _ _ _ u hu, ← hs, padHeading_tagged]

theorem foldl_padHeadings_other (N : Nat) (hN : Nat.digitChar N ≠ '<') (u : Str)
    (hu : ∀ x ∈ u, x ≠ '<') : ∀ (L : List Nat),
    (∀ i ∈ L, Nat.digitChar i ≠ Nat.digitChar N) →
    L.foldl (fun inp i => padHeadings i inp) (headingOpen N ++ u ++ headingClose N)
      = headingOpen N ++ u ++ headingClose N := by
  intro L
  induction L with
  | nil => intro _; rfl
  | cons i L ih =>
    intro hL
    rw [List.foldl_cons, padHeadings_other i N (hL i (List.mem_cons_self _ _)) hN u hu]
    exact ih (fun j hj => hL j (List.mem_cons_of_mem _ hj))

theorem matchHeadingClose_second (a b : Char) (r : Str) (hb : b ≠ '/') :
    matchHeadingClose (a :: b :: r) = none := by
  rcases r with _ | ⟨c, _ | ⟨d, _ | ⟨e, r⟩⟩⟩ <;> simp [matchHeadingClose, hb]

/-- The pass for `</h[1-8]>` appends a newline to the closing tag of
`<hN>u</hN>`. -/
theorem headingClose_pass (N : Nat) (h1 : 1 ≤ N) (h8 : N ≤ 8) (u : Str)
    (hu : ∀ x ∈ u, x ≠ '<') :
    replaceAllFunc matchHeadingClose (fun s => s ++ ['\n']) 0
        (headingOpen N ++ u ++ headingClose N)
      = headingOpen N ++ u ++ (headingClose N ++ ['\n']) := by
  have hN : Nat.digitChar N ≠ '<' := by interval_cases N <;> decide
  have hs : headingOpen N ++ u ++ headingClose N
      = '<' :: 'h' :: Nat.digitChar N :: '>' :: (u ++ headingClose N) := by
    simp [headingOpen]
  have hs1 : 'h' :: Nat.digitChar N :: '>' :: (u ++ headingClose N)
      = (['h', Nat.digitChar N, '>'] ++ u) ++ headingClose N := by
    simp
  have hs2 : headingOpen N ++ u ++ (headingClose N ++ ['\n'])
      = '<' :: ((['h', Nat.digitChar N, '>'] ++ u) ++ (headingClose N ++ ['\n'])) := by
    simp [headingOpen]
  have ha : ∀ x ∈ ['h', Nat.digitChar N, '>'] ++ u, x ≠ '<' := by
    intro x hx
    simp only [List.cons_append, List.nil_append, List.mem_cons] at hx
    rcases hx with rfl | rfl | rfl | hx
    · decide
    · exact hN
    · decide
    · exact hu x hx
  have hm : matchHeadingClose ('<' :: '/' :: 'h' :: Nat.digitChar N :: '>' :: [])
      = some (4 + 1) := matchHeadingClose_at_occurrence N h1 h8 _ (List.prefix_refl _)
  have hcl : headingClose N = '<' :: '/' :: 'h' :: Nat.digitChar N :: '>' :: [] := rfl
  rw [hs, hs2, replaceAllFunc_nomatch _ _ _ _ (matchHeadingClose_second _ _ _ (by decide)),
    hs1, replaceAllFunc_skip_free _ _ matchHeadingClose_head _ _ ha, hcl,
    replaceAllFunc_match _ _ _ _ 4 hm]
  simp [replaceAllFunc_nil]

/-- C7 (heading padding): for every level `N` in `1..6` and every content `c`
without `<` and without newline (the empty content included),
`addPause("<hN>" + c + "</hN>")` is `"<hN>" + c`, then `18 - 2*(N-1)` pause
characters (U+3000), then `"</hN>\n"`. -/
theorem addPause_heading (N : Nat) (c : Str) (h1 : 1 ≤ N) (h6 : N ≤ 6)
    (hc : ∀ x ∈ c, x ≠ '<' ∧ x ≠ '\n') :
    addPause (headingOpen N ++ c ++ headingClose N)
      = headingOpen N ++ c ++ List.replicate (18 - 2 * (N - 1)) pauseChar
          ++ headingClose N ++ ['\n'] := by
  have hN : Nat.digitChar N ≠ '<' := by interval_cases N <;> decide
  have hc1 : ∀ x ∈ c, x ≠ '<' := fun x hx => (hc x hx).1
  have hu : ∀ x ∈ c ++ List.replicate (18 - 2 * (N - 1)) pauseChar, x ≠ '<' := by
    intro x hx
    rcases List.mem_append.mp hx with hx | hx
    · exact hc1 x hx
    · rw [List.eq_of_mem_replicate hx]; decide
  have hr : List.range' 1 6 = List.range' 1 (N - 1) ++ N :: List.range' (N + 1) (6 - N) := by
    interval_cases N <;> rfl
  have hbefore : ∀ i ∈ List.range' 1 (N - 1), Nat.digitChar i ≠ Nat.digitChar N := by
    interval_cases N <;> decide
  have hafter : ∀ i ∈ List.range' (N + 1) (6 - N), Nat.digitChar i ≠ Nat.digitChar N := by
    interval_cases N <;> decide
  have e1 : "</p>\n".toList = "</p>".toList ++ ['\n'] := rfl
  unfold addPause
  simp only []
  rw [hr, List.foldl_append, List.foldl_cons, foldl_padHeadings_other N hN c hc1 _ hbefore,
    padHeadings_same N c hc, foldl_padHeadings_other N hN _ hu _ hafter]
  have hspan := replaceAllFunc_heading_unchanged
    (matchTagged "<span>".toList "</span>".toList) padSpan
    (fun a as ha => matchTagged_head _ _ a as ha) N hN _ []
    hu (by simp) (by intro r; simp [matchTagged, List.isPrefixOf])
    (by intro r; simp [matchTagged, List.isPrefixOf])
  rw [List.append_nil] at hspan
  rw [hspan]
  have hp := replaceAllFunc_heading_unchanged
    (matchLiteral "</p>".toList) (fun _ => "</p>\n".toList)
    (fun a as ha => matchLiteral_head _ a as ha) N hN _ []
    hu (by simp) (by intro r; simp [matchLiteral, List.isPrefixOf])
    (by intro r; simp [matchLiteral, List.isPrefixOf])
  rw [List.append_nil] at hp
  unfold stringsReplaceAll
  rw [hp, headingClose_pass N h1 (by omega) _ hu]
  have hbr := replaceAllFunc_heading_unchanged
    (matchLiteral "<br>".toList) (fun _ => "<br>\n".toList)
    (fun a as ha => matchLiteral_head _ a as ha) N hN _
    ['\n'] hu (by decide) (by intro r; simp [matchLiteral, List.isPrefixOf])
    (by intro r; simp [matchLiteral, List.isPrefixOf])
  rw [hbr]
  simp

/-- Witness of C7: level 1 with the content of `TestAddPause` (18 pause
characters), and level 6 with empty content (8 pause characters). -/
theorem addPause_heading_witness :
    addPause (headingOpen 1 ++ "見出し".toList ++ headingClose 1)
      = headingOpen 1 ++ "見出し".toList ++ List.replicate (18 - 2 * (1 - 1)) pauseChar
          ++ headingClose 1 ++ ['\n'] ∧
    headingOpen 1 ++ "見出し".toList ++ List.replicate (18 - 2 * (1 - 1)) pauseChar
          ++ headingClose 1 ++ ['\n']
      = "<h1>見出し　　　　　　　　　　　　　　　　　　</h1>\n".toList ∧
    addPause "<h6></h6>".toList = "<h6>　　　　　　　　</h6>\n".toList :=
  ⟨addPause_heading 1 "見出し".toList (by decide) (by decide) (by decide),
   by decide,
   addPause_heading 6 [] (by decide) (by decide) (by decide)⟩

/-- A pass whose pattern starts with `<` and matches at neither `<` of
`<span>u</span>` leaves that text unchanged. -/
theorem replaceAllFunc_span_unchanged (M : Str → Option Nat) (f : Str → Str)
    (hM : ∀ a as, a ≠ '<' → M (a :: as) = none) (u : Str) (hu : ∀ x ∈ u, x ≠ '<')
    (h1 : ∀ r, M ('<' :: 's' :: r) = none) (h2 : ∀ r, M ('<' :: '/' :: 's' :: r) = none) :
    replaceAllFunc M f 0 ("<span>".toList ++ u ++ "</span>".toList)
      = "<span>".toList ++ u ++ "</span>".toList := by
  have hs : "<span>".toList ++ u ++ "</span>".toList
      = '<' :: (("span>".toList ++ u) ++ '<' :: "/span>".toList) := by
    simp
  rw [hs]
  refine replaceAllFunc_no_match M f hM _ _ ?_ (by decide) (h1 _) (h2 _)
  intro x hx
  rcases List.mem_append.mp hx with hx | hx
  · exact (by decide : ∀ y ∈ "span>".toList, y ≠ '<') x hx
  · exact hu x hx

theorem matchHeadingClose_third (a b c : Char) (r : Str) (hc : c ≠ 'h') :
    matchHeadingClose (a :: b :: c :: r) = none := by
  rcases r with _ | ⟨d, _ | ⟨e, r⟩⟩ <;> simp [matchHeadingClose, hc]

theorem foldl_padHeadings_span (u : Str) (hu : ∀ x ∈ u, x ≠ '<') : ∀ (L : List Nat),
    L.foldl (fun inp i => padHeadings i inp) ("<span>".toList ++ u ++ "</span>".toList)
      = "<span>".toList ++ u ++ "</span>".toList := by
  intro L
  induction L with
  | nil => rfl
  | cons i L ih =>
    rw [List.foldl_cons]
    have := replaceAllFunc_span_unchanged
      (matchTagged (headingOpen i) (headingClose i)) (padHeading i)
      (fun a as ha => matchTagged_head _ _ a as ha) u hu
      (by intro r; simp [matchTagged, headingOpen, List.isPrefixOf])
      (by intro r; simp [matchTagged, headingOpen, List.isPrefixOf])
    unfold padHeadings
    rw [this]
    exact ih

/-- C8 (span padding): for every content `c` without `<` and without newline,
`addPause("<span>" + c + "</span>")` is `"<span>" + c`, two pause characters
(U+3000), then `"</span>"`; nothing else changes and no newline is added. -/
theorem addPause_span (c : Str) (hc : ∀ x ∈ c, x ≠ '<' ∧ x ≠ '\n') :
    addPause ("<span>".toList ++ c ++ "</span>".toList)
      = "<span>".toList ++ c ++ [pauseChar, pauseChar] ++ "</span>".toList := by
  have hc1 : ∀ x ∈ c, x ≠ '<' := fun x hx => (hc x hx).1
  have hu : ∀ x ∈ c ++ [pauseChar, pauseChar], x ≠ '<' := by
    intro x hx
    rcases List.mem_append.mp hx with hx | hx
    · exact hc1 x hx
    · exact (by decide : ∀ y ∈ [pauseChar, pauseChar], y ≠ '<') x hx
  have hs : "<span>".toList ++ c ++ "</span>".toList
      = '<' :: ("span>".toList ++ (c ++ '<' :: "/span>".toList)) := by
    simp
  have ho : "<span>".toList = '<' :: "span>".toList := rfl
  have hcl : "</span>".toList = '<' :: "/span>".toList := rfl
  have hmatch : replaceAllFunc (matchTagged "<span>".toList "</span>".toList) padSpan 0
      ("<span>".toList ++ c ++ "</span>".toList)
      = "<span>".toList ++ (c ++ [pauseChar, pauseChar]) ++ "</span>".toList := by
    rw [hs]
    conv_lhs => rw [ho, hcl]
    rw [replaceAllFunc_tagged_match _ _ _ c hc, ← hs, padSpan_tagged]
    simp
  unfold addPause
  simp only []
  rw [foldl_padHeadings_span c hc1, hmatch]
  unfold stringsReplaceAll
  rw [replaceAllFunc_span_unchanged (matchLiteral "</p>".toList) _
      (fun a as ha => matchLiteral_head _ a as ha) _ hu
      (by intro r; simp [matchLiteral, List.isPrefixOf])
      (by intro r; simp [matchLiteral, List.isPrefixOf]),
    replaceAllFunc_span_unchanged matchHeadingClose _ matchHeadingClose_head _ hu
      (fun r => matchHeadingClose_second _ _ _ (by decide))
      (fun r => matchHeadingClose_third _ _ _ _ (by decide)),
    replaceAllFunc_span_unchanged (matchLiteral "<br>".toList) _
      (fun a as ha => matchLiteral_head _ a as ha) _ hu
      (by intro r; simp [matchLiteral, List.isPrefixOf])
      (by intro r; simp [matchLiteral, List.isPrefixOf])]
  simp

/-- Witness of C8 on the span of `TestAddPause`. -/
theorem addPause_span_witness :
    addPause ("<span>".toList ++ "目立つ文字".toList ++ "</span>".toList)
      = "<span>".toList ++ "目立つ文字".toList ++ [pauseChar, pauseChar] ++ "</span>".toList ∧
    "<span>".toList ++ "目立つ文字".toList ++ [pauseChar, pauseChar] ++ "</span>".toList
      = "<span>目立つ文字　　</span>".toList :=
  ⟨addPause_span "目立つ文字".toList (by decide), by decide⟩


/-! ## Blank lines -/

theorem matchBlankRest_none : ∀ l : Str, matchBlankRest l = none := by
  intro l
  induction l with
  | nil => rfl
  | cons c cs ih =>
    rw [matchBlankRest, ih]
    simp [matchEndNewline]

/-- The pass for `^\s*$\n` changes no text: without the `m` flag `$` holds at
the end of the text only, where no `\n` can follow. -/
theorem removeBlankLines_id (l : Str) : removeBlankLines l = l := by
  unfold removeBlankLines
  rw [matchBlankRest_none]

/-- C11, behaviour of the code at inputs with an empty paragraph or two
consecutive `<br>`: the output keeps empty lines, between two text lines and
at the start, because the blank-line pattern never matches (the pass is the
identity on every text). -/
theorem xhtml2txt_blank_lines_kept :
    xhtml2txt "a<br><br>b".toList = "a\n\nb".toList ∧
    xhtml2txt "<p>a</p><p></p><p>b</p>".toList = "a\n\nb".toList ∧
    xhtml2txt "<br><br>a".toList = "\n\na".toList ∧
    xhtml2txt "<p>a</p> <p>b</p>".toList = "a\n b".toList ∧
    (∀ l : Str, removeBlankLines l = l) :=
  ⟨by decide, by decide, by decide, by decide, removeBlankLines_id⟩


/-! ## One iteration of the loop -/

theorem splitLoop_succ (lineRunes : Str) (inputLen maxChar : Int) (fuel : Nat) (start : Int)
    (result : List Str) :
    splitLoop lineRunes inputLen maxChar (fuel + 1) start result
      = if start < (lineRunes.length : Int) then
          match loopBody lineRunes inputLen maxChar start with
          | Step.final chunk => Outcome.ok (result ++ [chunk])
          | Step.next chunk start2 =>
            splitLoop lineRunes inputLen maxChar fuel start2 (result ++ [chunk])
          | Step.fail => Outcome.panic
        else Outcome.ok result := by
  rw [splitLoop]
  unfold loopBody
  simp only []
  by_cases h : start < (lineRunes.length : Int)
  · rw [if_pos h, if_pos h]
    generalize (if start + maxChar > inputLen then inputLen else start + maxChar) = end0
    by_cases h2 : end0 ≥ (lineRunes.length : Int)
    · rw [if_pos h2, if_pos h2]
      cases slice lineRunes start lineRunes.length <;> rfl
    · rw [if_neg h2, if_neg h2]
      cases slice lineRunes start end0 with
      | none => rfl
      | some window =>
        simp only []
        generalize (if getIndexByDelimiter window ≠ -1 then start + getIndexByDelimiter window
          else start + maxChar) = end1
        cases slice lineRunes start end1 <;> rfl
  · rw [if_neg h, if_neg h]

theorem loopBody_eq (T : Str) (m start : Nat) (hm : 1 ≤ m) (hs : start < T.length) :
    loopBody T (T.length : Int) (m : Int) (start : Int)
      = if T.length ≤ start + m then Step.final (T.drop start)
        else Step.next ((T.drop start).take (cutAt m (T.drop start)))
          ((start + cutAt m (T.drop start) : Nat) : Int) := by
  unfold loopBody
  by_cases hfin : T.length ≤ start + m
  · have hge : (if (start : Int) + (m : Int) > (T.length : Int) then (T.length : Int)
        else (start : Int) + (m : Int)) ≥ (T.length : Int) := by
      split <;> omega
    simp only [hge, if_true]
    rw [slice_nat T start T.length (by omega) (le_refl _), if_pos hfin]
    simp
  · have hlt : start + m < T.length := by omega
    have he : (if (start : Int) + (m : Int) > (T.length : Int) then (T.length : Int)
        else (start : Int) + (m : Int)) = ((start + m : Nat) : Int) := by
      rw [if_neg (by omega)]; push_cast; rfl
    simp only [he]
    rw [if_neg (by push_cast; omega), if_neg hfin]
    rw [slice_nat T start (start + m) (by omega) (by omega)]
    have hw : List.take (start + m - start) (List.drop start T) = (T.drop start).take m := by
      congr 1; omega
    simp only [hw]
    have hb := cutAt_bounds m (T.drop start) hm (by simp; omega)
    have hend : (if getIndexByDelimiter ((T.drop start).take m) ≠ -1
          then (start : Int) + getIndexByDelimiter ((T.drop start).take m)
          else (start : Int) + (m : Int))
        = ((start + cutAt m (T.drop start) : Nat) : Int) := by
      unfold cutAt
      rcases getIndexByDelimiter_range ((T.drop start).take m) with h | ⟨h1, h2⟩
      · simp [h]
      · rw [if_pos (by omega), if_pos (by omega)]
        push_cast
        omega
    simp only [hend]
    rw [slice_nat T start (start + cutAt m (T.drop start)) (by omega) (by omega)]
    have hc : start + cutAt m (T.drop start) - start = cutAt m (T.drop start) := by omega
    simp [hc]


/-- C13 (totality and termination): for `maxChar ≥ 1`, an iteration entered
with cursor `start < len(T)` never panics; it either emits the final chunk
`T[start:]` (when `start + maxChar` reaches the end) or emits `T[start:start2]`
and moves the cursor to `start2` with `start + 1 ≤ start2 ≤ start + maxChar` and
`start2 < len(T)`.  So `splitString` returns a result within `len(T)`
iterations (any fuel from `len(T)` on is enough). -/
theorem splitString_total (T : Str) (maxChar : Int) (hm : 1 ≤ maxChar) :
    (∀ start : Nat, start < T.length →
      (loopBody T (T.length : Int) maxChar (start : Int) = Step.final (T.drop start) ∧
        (T.length : Int) ≤ (start : Int) + maxChar) ∨
      (∃ start2 : Nat,
        loopBody T (T.length : Int) maxChar (start : Int)
          = Step.next ((T.drop start).take (start2 - start)) (start2 : Int) ∧
        start + 1 ≤ start2 ∧ (start2 : Int) ≤ (start : Int) + maxChar ∧ start2 < T.length)) ∧
    (∀ fuel : Nat, T.length ≤ fuel → ∃ chunks, splitString fuel T maxChar = Outcome.ok chunks) := by
  obtain ⟨m, rfl⟩ : ∃ m : Nat, maxChar = (m : Int) := ⟨maxChar.toNat, by omega⟩
  have hm1 : 1 ≤ m := by omega
  constructor
  · intro start hs
    rw [loopBody_eq T m start hm1 hs]
    by_cases hfin : T.length ≤ start + m
    · left
      rw [if_pos hfin]
      exact ⟨rfl, by omega⟩
    · right
      have hb := cutAt_bounds m (T.drop start) hm1 (by simp; omega)
      refine ⟨start + cutAt m (T.drop start), ?_, by omega, by omega, by omega⟩
      rw [if_neg hfin]
      have hc : start + cutAt m (T.drop start) - start = cutAt m (T.drop start) := by omega
      rw [hc]
  · intro fuel hf
    exact ⟨_, splitString_eq T m fuel hm1 hf⟩

/-- Witness of C13 on the text of `TestSplitString_Long`, `maxChar = 5`. -/
theorem splitString_total_witness :
    (∀ start : Nat, start < "あいう、えおかき。くけ,こさし.すせそ\nたちつてとな".toList.length →
      (loopBody "あいう、えおかき。くけ,こさし.すせそ\nたちつてとな".toList
          ("あいう、えおかき。くけ,こさし.すせそ\nたちつてとな".toList.length : Int) 5 (start : Int)
          = Step.final ("あいう、えおかき。くけ,こさし.すせそ\nたちつてとな".toList.drop start) ∧
        ("あいう、えおかき。くけ,こさし.すせそ\nたちつてとな".toList.length : Int)
          ≤ (start : Int) + 5) ∨
      (∃ start2 : Nat,
        loopBody "あいう、えおかき。くけ,こさし.すせそ\nたちつてとな".toList
            ("あいう、えおかき。くけ,こさし.すせそ\nたちつてとな".toList.length : Int) 5 (start : Int)
          = Step.next (("あいう、えおかき。くけ,こさし.すせそ\nたちつてとな".toList.drop start).take
              (start2 - start)) (start2 : Int) ∧
        start + 1 ≤ start2 ∧ (start2 : Int) ≤ (start : Int) + 5 ∧
        start2 < "あいう、えおかき。くけ,こさし.すせそ\nたちつてとな".toList.length)) ∧
    (∀ fuel : Nat, "あいう、えおかき。くけ,こさし.すせそ\nたちつてとな".toList.length ≤ fuel →
      ∃ chunks, splitString fuel "あいう、えおかき。くけ,こさし.すせそ\nたちつてとな".toList 5
        = Outcome.ok chunks) :=
  splitString_total "あいう、えおかき。くけ,こさし.すせそ\nたちつてとな".toList 5 (by decide)

/-! ## maxChar below 1 -/

theorem loopBody_zero (T : Str) (hT : T ≠ []) :
    loopBody T (T.length : Int) 0 0 = Step.next [] 0 := by
  have hpos : 0 < T.length := List.length_pos.mpr hT
  have hs : slice T 0 0 = some [] := by
    unfold slice
    rw [if_pos (by omega)]
    simp
  have hg : getIndexByDelimiter [] = -1 := rfl
  unfold loopBody
  simp only [add_zero, zero_add]
  rw [if_neg (by omega), if_neg (by omega), hs]
  simp only [hg]
  rw [if_neg (by simp), hs]

theorem splitLoop_zero (T : Str) (hT : T ≠ []) : ∀ (fuel : Nat) (result : List Str),
    splitLoop T (T.length : Int) 0 fuel 0 result = Outcome.timeout := by
  have hpos : (0 : Int) < (T.length : Int) := by
    have := List.length_pos.mpr hT
    omega
  intro fuel
  induction fuel with
  | zero => intro result; rw [splitLoop, if_pos hpos]
  | succ fuel ih =>
    intro result
    rw [splitLoop_succ, if_pos hpos, loopBody_zero T hT]
    exact ih _

theorem loopBody_negative (T : Str) (hT : T ≠ []) (maxChar : Int) (hneg : maxChar < 0) :
    loopBody T (T.length : Int) maxChar 0 = Step.fail := by
  have hpos : 0 < T.length := List.length_pos.mpr hT
  have hs : slice T 0 maxChar = none := by
    unfold slice
    rw [if_neg (by omega)]
  unfold loopBody
  simp only [zero_add]
  rw [if_neg (by omega), if_neg (by omega), hs]

/-- C14, the claim as stated fails: with `maxChar = 0` the splitter, on the
one-codepoint text `a`, returns for no amount of fuel; its iteration appends an
empty chunk and leaves the cursor at 0.  No error is signalled. -/
theorem splitString_invalid_maxChar_counterexample :
    (∀ fuel : Nat, splitString fuel "a".toList 0 = Outcome.timeout) ∧
    loopBody "a".toList ("a".toList.length : Int) 0 0 = Step.next [] 0 := by
  refine ⟨?_, by decide⟩
  intro fuel
  unfold splitString
  rw [if_neg (by decide)]
  exact splitLoop_zero "a".toList (by decide) fuel []

/-- C14 (amended): for a non-empty `T`, `splitString` with `maxChar = 0` does
not terminate (every iteration appends an empty chunk and leaves the cursor at
0), and with `maxChar < 0` its first iteration panics in the slice expression
`lineRunes[start:end]`; in neither case is a result or an explicit error
returned. -/
theorem splitString_invalid_maxChar (T : Str) (hT : T ≠ []) :
    (∀ fuel : Nat, splitString fuel T 0 = Outcome.timeout) ∧
    loopBody T (T.length : Int) 0 0 = Step.next [] 0 ∧
    (∀ maxChar : Int, maxChar < 0 →
      loopBody T (T.length : Int) maxChar 0 = Step.fail ∧
      ∀ fuel : Nat, splitString (fuel + 1) T maxChar = Outcome.panic) := by
  have hpos : 0 < T.length := List.length_pos.mpr hT
  refine ⟨?_, loopBody_zero T hT, ?_⟩
  · intro fuel
    unfold splitString
    rw [if_neg (by omega)]
    exact splitLoop_zero T hT fuel []
  · intro maxChar hneg
    refine ⟨loopBody_negative T hT maxChar hneg, ?_⟩
    intro fuel
    unfold splitString
    rw [if_neg (by omega), splitLoop_succ, if_pos (by omega), loopBody_negative T hT maxChar hneg]

/-- Witness of C14 (amended) on the text `あいうえお`. -/
theorem splitString_invalid_maxChar_witness :
    (∀ fuel : Nat, splitString fuel "あいうえお".toList 0 = Outcome.timeout) ∧
    loopBody "あいうえお".toList ("あいうえお".toList.length : Int) 0 0 = Step.next [] 0 ∧
    (∀ maxChar : Int, maxChar < 0 →
      loopBody "あいうえお".toList ("あいうえお".toList.length : Int) maxChar 0 = Step.fail ∧
      ∀ fuel : Nat, splitString (fuel + 1) "あいうえお".toList maxChar = Outcome.panic) :=
  splitString_invalid_maxChar "あいうえお".toList (by decide)


/-! ## The rightmost delimiter -/

theorem isDelimiter_iff (c : Char) :
    isDelimiter c = true ↔ c ∈ [',', '.', '、', '。', '，', '．', '\n'] := by
  simp [isDelimiter, or_assoc]

/-- C17 (`getIndexByDelimiter` locates the rightmost delimiter, counted in
codepoints): the result is `-1` when the text holds none of `,` `.` `、` `。`
`，` `．` newline; otherwise it is `k + 1` for the 0-based codepoint index `k`
of the last delimiter, hence between 1 and the codepoint length. -/
theorem getIndexByDelimiter_rightmost (s : Str) :
    ((∀ c ∈ s, c ∉ [',', '.', '、', '。', '，', '．', '\n']) → getIndexByDelimiter s = -1) ∧
    (∀ (k : Nat) (d : Char), s[k]? = some d → d ∈ [',', '.', '、', '。', '，', '．', '\n'] →
      (∀ k2 d2, k < k2 → s[k2]? = some d2 → d2 ∉ [',', '.', '、', '。', '，', '．', '\n']) →
      getIndexByDelimiter s = (k : Int) + 1 ∧
      1 ≤ getIndexByDelimiter s ∧ getIndexByDelimiter s ≤ (s.length : Int)) := by
  constructor
  · intro h
    apply getIndexByDelimiter_of_none
    intro c hc
    have := h c hc
    rw [← isDelimiter_iff] at this
    simpa using this
  · intro k d hk hd hr
    have h1 := getIndexByDelimiter_of_rightmost s k d hk ((isDelimiter_iff d).mpr hd)
      (fun k2 d2 hlt h2 => by
        have := hr k2 d2 hlt h2
        rw [← isDelimiter_iff] at this
        simpa using this)
    obtain ⟨hlt, _⟩ := List.getElem?_eq_some.mp hk
    rw [h1]
    refine ⟨by push_cast; rfl, by push_cast; omega, by push_cast; omega⟩

/-- Witness of C17 on the text of `TestGetIndexByDelimiter`: the last
delimiter `。` has index 6 and the result is 7. -/
theorem getIndexByDelimiter_rightmost_witness :
    getIndexByDelimiter "あ、いうえお。かき".toList = (6 : Int) + 1 ∧
    1 ≤ getIndexByDelimiter "あ、いうえお。かき".toList ∧
    getIndexByDelimiter "あ、いうえお。かき".toList ≤ ("あ、いうえお。かき".toList.length : Int) :=
  (getIndexByDelimiter_rightmost "あ、いうえお。かき".toList).2 6 '。' (by decide) (by decide)
    (by
      intro k2 d2 hlt h2
      have hmem : d2 ∈ "あ、いうえお。かき".toList.drop 7 := by
        refine List.mem_iff_getElem?.mpr ⟨k2 - 7, ?_⟩
        have e : 7 + (k2 - 7) = k2 := by omega
        rw [List.getElem?_drop, e, h2]
      exact (by decide : ∀ c ∈ "あ、いうえお。かき".toList.drop 7,
        c ∉ [',', '.', '、', '。', '，', '．', '\n']) d2 hmem)

/-! ## The splitter as a recursion -/

theorem lastDelimiterIndex_of_none (s : Str) (h : ∀ c ∈ s, isDelimiter c = false) :
    lastDelimiterIndex s = none := by
  induction s with
  | nil => rfl
  | cons c cs ih =>
    rw [lastDelimiterIndex, ih (fun x hx => h x (List.mem_cons_of_mem _ hx))]
    simp [h c (List.mem_cons_self _ _)]

theorem lastDelimiterIndex_of_last (pre : Str) (d : Char) (suf : Str)
    (hd : isDelimiter d = true) (hs : ∀ c ∈ suf, isDelimiter c = false) :
    lastDelimiterIndex (pre ++ d :: suf) = some pre.length := by
  induction pre with
  | nil =>
    rw [List.nil_append, lastDelimiterIndex, lastDelimiterIndex_of_none suf hs]
    simp [hd]
  | cons a pre ih =>
    rw [List.cons_append, lastDelimiterIndex, ih]
    rfl

theorem cutAt_eq_rightmostCut (m : Nat) (T : Str) : cutAt m T = rightmostCut m T := by
  unfold rightmostCut
  rcases last_delimiter_split (T.take m) with hnone | ⟨pre, d, suf, hw, hd, hs⟩
  · rw [cutAt_of_none m T hnone, lastDelimiterIndex_of_none _ hnone]
  · rw [(cutAt_of_split m T pre d suf hw hd hs).1, hw, lastDelimiterIndex_of_last pre d suf hd hs]

theorem chunksFrom_fuel (m : Nat) (hm : 1 ≤ m) : ∀ (f1 f2 : Nat) (rest : Str),
    rest ≠ [] → rest.length ≤ f1 → rest.length ≤ f2 →
    chunksFrom m f1 rest = chunksFrom m f2 rest := by
  intro f1
  induction f1 with
  | zero =>
    intro f2 rest hne h1 _
    exact absurd (List.eq_nil_of_length_eq_zero (by omega)) hne
  | succ f1 ih =>
    intro f2 rest hne h1 h2
    have hpos : 0 < rest.length := List.length_pos.mpr hne
    obtain ⟨g, rfl⟩ : ∃ g, f2 = g + 1 := ⟨f2 - 1, by omega⟩
    by_cases hs : rest.length ≤ m
    · rw [chunksFrom_succ_short m f1 rest hs, chunksFrom_succ_short m g rest hs]
    · have hb := cutAt_bounds m rest hm (by omega)
      rw [chunksFrom_succ_long m f1 rest (by omega), chunksFrom_succ_long m g rest (by omega)]
      congr 1
      refine ih g _ ?_ (by simp; omega) (by simp; omega)
      intro h0
      have := congrArg List.length h0
      simp at this
      omega

/-- C19 (the loop equals its recursive description): for `T` longer than
`maxChar ≥ 1`, let `c` be the prefix of `T` that ends at the rightmost
delimiter among the first `maxChar` codepoints (the first `maxChar` codepoints
when there is none) and `R` the rest of `T`.  Then `R` is not empty, `c` has
between 1 and `maxChar` codepoints, and `splitString(T)` is `c` followed by
`splitString(R)`. -/
theorem splitString_recursion (T : Str) (maxChar : Int) (fuel : Nat)
    (hm : 1 ≤ maxChar) (hlong : maxChar < (T.length : Int)) (hf : T.length ≤ fuel) :
    T.drop (rightmostCut maxChar.toNat T) ≠ [] ∧
    1 ≤ rightmostCut maxChar.toNat T ∧ (rightmostCut maxChar.toNat T : Int) ≤ maxChar ∧
    ∃ rest, splitString fuel (T.drop (rightmostCut maxChar.toNat T)) maxChar = Outcome.ok rest ∧
      splitString fuel T maxChar
        = Outcome.ok (T.take (rightmostCut maxChar.toNat T) :: rest) := by
  obtain ⟨m, rfl⟩ : ∃ m : Nat, maxChar = (m : Int) := ⟨maxChar.toNat, by omega⟩
  have hm1 : 1 ≤ m := by omega
  have hlong1 : m < T.length := by omega
  rw [Int.toNat_ofNat, ← cutAt_eq_rightmostCut]
  have hb := cutAt_bounds m T hm1 (by omega)
  have hne : T.drop (cutAt m T) ≠ [] := by
    intro h0
    have := congrArg List.length h0
    simp at this
    omega
  have hlenR : (T.drop (cutAt m T)).length ≤ fuel := by simp; omega
  refine ⟨hne, hb.1, by exact_mod_cast hb.2, ?_⟩
  refine ⟨_, splitString_eq _ m fuel hm1 hlenR, ?_⟩
  rw [splitString_long_eq T m fuel hm1 hlong1 hf]
  obtain ⟨f, rfl⟩ : ∃ f, fuel = f + 1 := ⟨fuel - 1, by omega⟩
  rw [chunksFrom_succ_long m f T hlong1]
  congr 2
  have hlenR2 : (T.drop (cutAt m T)).length ≤ f := by simp; omega
  split
  · rename_i hs
    have hposR : 0 < (T.drop (cutAt m T)).length := List.length_pos.mpr hne
    obtain ⟨g, rfl⟩ : ∃ g, f = g + 1 := ⟨f - 1, by omega⟩
    rw [chunksFrom_succ_short m g _ hs]
  · exact chunksFrom_fuel m hm1 f (f + 1) _ hne hlenR2 hlenR

/-- Witness of C19 on the text of `TestSplitString_Long`, `maxChar = 5`: the
first chunk is `あいう、` and the rest is split on its own. -/
theorem splitString_recursion_witness :
    "あいう、えおかき。くけ,こさし.すせそ\nたちつてとな".toList.take
        (rightmostCut (5 : Int).toNat "あいう、えおかき。くけ,こさし.すせそ\nたちつてとな".toList)
      = "あいう、".toList ∧
    "あいう、えおかき。くけ,こさし.すせそ\nたちつてとな".toList.drop
        (rightmostCut (5 : Int).toNat "あいう、えおかき。くけ,こさし.すせそ\nたちつてとな".toList) ≠ [] ∧
    1 ≤ rightmostCut (5 : Int).toNat "あいう、えおかき。くけ,こさし.すせそ\nたちつてとな".toList ∧
    (rightmostCut (5 : Int).toNat "あいう、えおかき。くけ,こさし.すせそ\nたちつてとな".toList : Int) ≤ 5 ∧
    ∃ rest,
      splitString 26 ("あいう、えおかき。くけ,こさし.すせそ\nたちつてとな".toList.drop
        (rightmostCut (5 : Int).toNat "あいう、えおかき。くけ,こさし.すせそ\nたちつてとな".toList)) 5
        = Outcome.ok rest ∧
      splitString 26 "あいう、えおかき。くけ,こさし.すせそ\nたちつてとな".toList 5
        = Outcome.ok ("あいう、えおかき。くけ,こさし.すせそ\nたちつてとな".toList.take
            (rightmostCut (5 : Int).toNat "あいう、えおかき。くけ,こさし.すせそ\nたちつてとな".toList)
          :: rest) :=
  ⟨by decide,
   splitString_recursion "あいう、えおかき。くけ,こさし.すせそ\nたちつてとな".toList 5 26
    (by decide) (by decide) (by decide)⟩


/-! ## addPause only inserts -/

theorem Inserted.mono {ok ok2 : Char → Prop} (h : ∀ c, ok c → ok2 c) {x y : Str}
    (hi : Inserted ok x y) : Inserted ok2 x y := by
  induction hi with
  | nil => exact Inserted.nil
  | keep c _ ih => exact Inserted.keep c ih
  | add c hc _ ih => exact Inserted.add c (h c hc) ih

theorem Inserted.sublist {ok : Char → Prop} {x y : Str} (hi : Inserted ok x y) :
    List.Sublist x y := by
  induction hi with
  | nil => exact List.Sublist.slnil
  | keep c _ ih => exact List.Sublist.cons₂ c ih
  | add c _ _ ih => exact List.Sublist.cons c ih

theorem Inserted.count_le {ok : Char → Prop} {x y : Str} (hi : Inserted ok x y) (a : Char) :
    x.count a ≤ y.count a :=
  List.Sublist.count_le hi.sublist a

/-- A replacement pass whose replacement function only inserts admissible
codepoints into the matched text is an insertion. -/
theorem inserted_replaceAllFunc_of_inserted (ok : Char → Prop) (M : Str → Option Nat)
    (f : Str → Str)
    (hf : ∀ s n, M s = some (n + 1) → Inserted ok (s.take (n + 1)) (f (s.take (n + 1)))) :
    ∀ (k : Nat) (l : Str), l.length ≤ k → Inserted ok l (replaceAllFunc M f 0 l) := by
  intro k
  induction k with
  | zero =>
    intro l hl
    have : l = [] := List.eq_nil_of_length_eq_zero (by omega)
    subst this
    exact Inserted.nil
  | succ k ih =>
    intro l hl
    cases l with
    | nil => exact Inserted.nil
    | cons c cs =>
      cases hm : M (c :: cs) with
      | none =>
        rw [replaceAllFunc_nomatch M f c cs hm]
        exact Inserted.keep c (ih cs (by simpa using hl))
      | some n =>
        cases n with
        | zero =>
          rw [replaceAllFunc, hm]
          exact Inserted.keep c (ih cs (by simpa using hl))
        | succ n =>
          rw [replaceAllFunc_match M f c cs n hm]
          have hrec := ih ((c :: cs).drop (n + 1)) (by simp at hl ⊢; omega)
          have := Inserted.append (hf (c :: cs) n hm) hrec
          rwa [List.take_append_drop] at this

theorem lazyUntil_some (close : Str) : ∀ (r : Str) (k : Nat), lazyUntil close r = some k →
    r.take (k + close.length) = r.take k ++ close := by
  intro r
  induction r with
  | nil =>
    intro k h
    simp only [lazyUntil] at h
    split at h
    · rename_i hp
      have hc : close = [] := by
        have := List.isPrefixOf_iff_prefix.mp hp
        exact List.prefix_nil.mp this
      simp [hc]
    · simp at h
  | cons a cs ih =>
    intro k h
    rw [lazyUntil] at h
    split at h
    · rename_i hp
      have hk : k = 0 := by simpa using h.symm
      subst hk
      have := List.prefix_iff_eq_take.mp (List.isPrefixOf_iff_prefix.mp hp)
      simpa using this.symm
    · split at h
      · simp at h
      · cases hl : lazyUntil close cs with
        | none => rw [hl] at h; simp at h
        | some k2 =>
          rw [hl] at h
          have hk : k = k2 + 1 := by simpa using h.symm
          subst hk
          have := ih k2 hl
          have e : k2 + 1 + close.length = (k2 + close.length) + 1 := by omega
          rw [e, List.take_succ_cons, this, List.take_succ_cons, List.cons_append]

theorem matchTagged_some (opn close s : Str) (n : Nat) (h : matchTagged opn close s = some n) :
    ∃ mid, s.take n = opn ++ mid ++ close := by
  unfold matchTagged at h
  split at h
  · rename_i hp
    obtain ⟨r, rfl⟩ := List.isPrefixOf_iff_prefix.mp hp
    rw [List.drop_left] at h
    cases hl : lazyUntil close r with
    | none => rw [hl] at h; simp at h
    | some k =>
      rw [hl] at h
      have hn : n = opn.length + (k + close.length) := by
        have : opn.length + k + close.length = n := by simpa using h
        omega
      refine ⟨r.take k, ?_⟩
      rw [hn, List.take_append, lazyUntil_some close r k hl, List.append_assoc]
  · simp at h

theorem inserted_middle (ok : Char → Prop) (a b e : Str) (he : ∀ c ∈ e, ok c) :
    Inserted ok (a ++ b) (a ++ e ++ b) := by
  have h1 : Inserted ok a (a ++ e) := by
    have := Inserted.append (Inserted.refl ok a) (Inserted.all_added e he)
    simpa using this
  exact Inserted.append h1 (Inserted.refl ok b)

theorem inserted_padHeadings (i : Nat) (l : Str) :
    Inserted (fun c => c = pauseChar ∨ c = '\n') l (padHeadings i l) := by
  unfold padHeadings
  refine inserted_replaceAllFunc_of_inserted _ _ _ ?_ l.length l (le_refl _)
  intro s n h
  obtain ⟨mid, hmid⟩ := matchTagged_some _ _ s _ h
  rw [hmid, padHeading_tagged i i mid]
  have := inserted_middle (fun c => c = pauseChar ∨ c = '\n') (headingOpen i ++ mid)
    (headingClose i) (List.replicate (18 - 2 * (i - 1)) pauseChar)
    (fun c hc => Or.inl (List.eq_of_mem_replicate hc))
  simpa using this

theorem inserted_foldl_padHeadings : ∀ (L : List Nat) (l : Str),
    Inserted (fun c => c = pauseChar ∨ c = '\n') l
      (L.foldl (fun inp i => padHeadings i inp) l) := by
  intro L
  induction L with
  | nil => intro l; exact Inserted.refl _ l
  | cons i L ih =>
    intro l
    rw [List.foldl_cons]
    exact Inserted.trans (inserted_padHeadings i l) (ih _)

theorem inserted_padSpans (l : Str) :
    Inserted (fun c => c = pauseChar ∨ c = '\n') l
      (replaceAllFunc (matchTagged "<span>".toList "</span>".toList) padSpan 0 l) := by
  refine inserted_replaceAllFunc_of_inserted _ _ _ ?_ l.length l (le_refl _)
  intro s n h
  obtain ⟨mid, hmid⟩ := matchTagged_some _ _ s _ h
  rw [hmid, padSpan_tagged mid]
  have := inserted_middle (fun c => c = pauseChar ∨ c = '\n') ("<span>".toList ++ mid)
    "</span>".toList [pauseChar, pauseChar] (by simp)
  simpa using this

/-- The text `addPause x` is `x` with pause characters and newlines inserted. -/
theorem inserted_addPause (x : Str) :
    Inserted (fun c => c = pauseChar ∨ c = '\n') x (addPause x) := by
  have hnl : ∀ c : Char, c = '\n' → (c = pauseChar ∨ c = '\n') := fun c h => Or.inr h
  have e1 : "</p>\n".toList = "</p>".toList ++ ['\n'] := rfl
  have e2 : "<br>\n".toList = "<br>".toList ++ ['\n'] := rfl
  have hI2 : ∀ l : Str, Inserted (fun c => c = '\n') l
      (replaceAllFunc matchHeadingClose (fun s => s ++ ['\n']) 0 l) := fun l =>
    inserted_replaceAllFunc _ _ _ (fun s n _ => ⟨['\n'], rfl, by simp⟩)
      (fun s h0 => by have := (matchHeadingClose_some s 0 h0).1; omega) l.length l (le_refl _)
  unfold addPause
  simp only []
  rw [e1, e2]
  have h1 := inserted_foldl_padHeadings (List.range' 1 6) x
  have h2 := inserted_padSpans (List.foldl (fun inp i => padHeadings i inp) x (List.range' 1 6))
  have h3 := Inserted.mono hnl (inserted_stringsReplaceAll "</p>".toList (by decide)
    (replaceAllFunc (matchTagged "<span>".toList "</span>".toList) padSpan 0
      (List.foldl (fun inp i => padHeadings i inp) x (List.range' 1 6))))
  have h4 := Inserted.mono hnl (hI2 (stringsReplaceAll "</p>".toList ("</p>".toList ++ ['\n'])
    (replaceAllFunc (matchTagged "<span>".toList "</span>".toList) padSpan 0
      (List.foldl (fun inp i => padHeadings i inp) x (List.range' 1 6)))))
  have h5 := Inserted.mono hnl (inserted_stringsReplaceAll "<br>".toList (by decide)
    (replaceAllFunc matchHeadingClose (fun s => s ++ ['\n']) 0
      (stringsReplaceAll "</p>".toList ("</p>".toList ++ ['\n'])
        (replaceAllFunc (matchTagged "<span>".toList "</span>".toList) padSpan 0
          (List.foldl (fun inp i => padHeadings i inp) x (List.range' 1 6))))))
  exact Inserted.trans (Inserted.trans (Inserted.trans (Inserted.trans h1 h2) h3) h4) h5

/-- C20 (`addPause` only inserts pause and line-break characters): for every
input `x`, `addPause x` is `x` with codepoints inserted, each of them a pause
character (U+3000) or a newline; so `x` is a subsequence of `addPause x` and
no codepoint of the input is deleted, replaced or reordered. -/
theorem addPause_only_inserts (x : Str) :
    Inserted (fun c => c = pauseChar ∨ c = '\n') x (addPause x) ∧
    List.Sublist x (addPause x) :=
  ⟨inserted_addPause x, (inserted_addPause x).sublist⟩

/-! ## Literal scenario and repeated annotation -/

/-- C16, the claim as stated fails: on the input of scenario 1 `addPause` does
not return the literal of the specification, which has no newline. -/
theorem addPause_scenario_counterexample :
    addPause "<h1>見出し</h1><p>本文と<br>改行</p><p>本文と<span>目立つ文字</span></p>".toList
      ≠ ("<h1>見出し".toList ++ List.replicate 18 pauseChar
          ++ "</h1><p>本文と<br>改行</p><p>本文と<span>目立つ文字".toList
          ++ List.replicate 2 pauseChar ++ "</span></p>".toList) := by
  decide

/-- C16 (amended): on the input of scenario 1 `addPause` returns the literal of
`TestAddPause`: the padding of the specification's literal, and a newline
after `</h1>`, after `<br>` and after each `</p>`. -/
theorem addPause_scenario :
    addPause "<h1>見出し</h1><p>本文と<br>改行</p><p>本文と<span>目立つ文字</span></p>".toList
      = ("<h1>見出し".toList ++ List.replicate 18 pauseChar
          ++ "</h1>\n<p>本文と<br>\n改行</p>\n<p>本文と<span>目立つ文字".toList
          ++ List.replicate 2 pauseChar ++ "</span></p>\n".toList) := by
  decide

/-- C15, the claim as stated fails: `addPause` applied to its own output on
`<h1>a</h1>` pads the heading a second time, 36 pause characters instead of
18. -/
theorem addPause_twice_counterexample :
    (addPause "<h1>a</h1>".toList).count pauseChar = 18 ∧
    (addPause (addPause "<h1>a</h1>".toList)).count pauseChar = 36 ∧
    addPause (addPause "<h1>a</h1>".toList)
      = "<h1>a".toList ++ List.replicate 36 pauseChar ++ "</h1>\n\n".toList := by
  decide


/-! ## Passes over a text given by its tags -/

theorem render_nil (us : List Str) : render [] us = [] := by
  cases us <;> rfl

theorem render_cons (t u : Str) (ts us : List Str) :
    render (t :: ts) (u :: us) = t ++ (u ++ render ts us) := rfl

theorem isTagText_eq (t : Str) (h : isTagText t = true) :
    ∃ t2, t = '<' :: t2 ∧ ∀ x ∈ t2, x ≠ '<' := by
  cases t with
  | nil => simp [isTagText] at h
  | cons c t2 =>
    simp only [isTagText, Bool.and_eq_true, beq_iff_eq, List.all_eq_true, bne_iff_ne] at h
    exact ⟨t2, by rw [h.1], h.2⟩

theorem isPrefixOf_append_of_incomparable (p t r : Str) (h : incomparable p t = true) :
    p.isPrefixOf (t ++ r) = false := by
  simp only [incomparable, Bool.and_eq_true, Bool.not_eq_true', ] at h
  cases hp : p.isPrefixOf (t ++ r) with
  | false => rfl
  | true =>
    have h1 : p <+: t ++ r := List.isPrefixOf_iff_prefix.mp hp
    have h2 : t <+: t ++ r := List.prefix_append t r
    rcases List.prefix_or_prefix_of_prefix h1 h2 with h3 | h3
    · have := List.isPrefixOf_iff_prefix.mpr h3
      rw [h.1] at this
      exact absurd this (by simp)
    · have := List.isPrefixOf_iff_prefix.mpr h3
      rw [h.2] at this
      exact absurd this (by simp)

theorem matchTagged_content (o2 c2 u rest : Str) (hu : ∀ x ∈ u, x ≠ '<' ∧ x ≠ '\n') :
    matchTagged ('<' :: o2) ('<' :: c2) (('<' :: o2) ++ (u ++ (('<' :: c2) ++ rest)))
      = some ((o2.length + 1 + u.length + c2.length) + 1) := by
  unfold matchTagged
  have hpre : ('<' :: o2) <+: (('<' :: o2) ++ (u ++ (('<' :: c2) ++ rest))) :=
    List.prefix_append _ _
  rw [if_pos (List.isPrefixOf_iff_prefix.mpr hpre), List.drop_left]
  have := lazyUntil_content c2 (c2 ++ rest) (List.prefix_append _ _) u hu
  rw [List.cons_append, this]
  rfl

theorem replaceAllFunc_render_tagged (opn close o2 c2 : Str) (ho : opn = '<' :: o2)
    (hc : close = '<' :: c2) (hne : close ≠ opn) (f : Str → Str) (pad : Str)
    (hf : ∀ u, f (opn ++ (u ++ close)) = opn ++ ((u ++ pad) ++ close)) :
    ∀ (n : Nat) (ts us : List Str), ts.length ≤ n → ts.length = us.length →
      tagsFitTagged opn close ts = true →
      (∀ u ∈ us, ∀ x ∈ u, x ≠ '<') →
      (∀ p ∈ List.zip ts us, p.1 = opn → ∀ x ∈ p.2, x ≠ '\n') →
      replaceAllFunc (matchTagged opn close) f 0 (render ts us)
        = render ts (padAfter opn pad ts us) := by
  have hM : ∀ a as, a ≠ '<' → matchTagged opn close (a :: as) = none := by
    intro a as ha
    rw [ho]
    exact matchTagged_head _ _ a as ha
  intro n
  induction n with
  | zero =>
    intro ts us hl _ _ _ _
    have : ts = [] := List.eq_nil_of_length_eq_zero (by omega)
    subst this
    rw [render_nil, render_nil]
    rfl
  | succ n ih =>
    intro ts us hl hlen hfit hfree hnl
    cases ts with
    | nil => rw [render_nil, render_nil]; rfl
    | cons t ts =>
      cases us with
      | nil => simp at hlen
      | cons u us =>
        simp only [tagsFitTagged, Bool.and_eq_true] at hfit
        obtain ⟨⟨htag, hcond⟩, hrest⟩ := hfit
        have hu : ∀ x ∈ u, x ≠ '<' := hfree u (List.mem_cons_self _ _)
        have hfree2 : ∀ v ∈ us, ∀ x ∈ v, x ≠ '<' :=
          fun v hv => hfree v (List.mem_cons_of_mem _ hv)
        by_cases ht : t = opn
        · subst ht
          rw [if_pos rfl] at hcond
          have hun : ∀ x ∈ u, x ≠ '\n' := hnl (t, u) (by simp) rfl
          cases ts with
          | nil => simp at hcond
          | cons t2 ts2 =>
            have ht2 : t2 = close := by simpa using hcond
            subst ht2
            cases us with
            | nil => simp at hlen
            | cons v us2 =>
              have hv : ∀ x ∈ v, x ≠ '<' := hfree2 v (List.mem_cons_self _ _)
              have hrest2 : tagsFitTagged t t2 ts2 = true := by
                simp only [tagsFitTagged, Bool.and_eq_true] at hrest
                exact hrest.2
              have hih := ih ts2 us2 (by simp at hl; omega) (by simpa using hlen) hrest2
                (fun w hw => hfree2 w (List.mem_cons_of_mem _ hw))
                (fun p hp => hnl p (by
                  simp only [List.zip_cons_cons, List.mem_cons]
                  exact Or.inr (Or.inr hp)))
              have hm := matchTagged_content o2 c2 u (v ++ render ts2 us2)
                (fun x hx => ⟨hu x hx, hun x hx⟩)
              rw [← ho, ← hc] at hm
              have hlen3 : (t ++ (u ++ t2)).length = (o2.length + 1 + u.length + c2.length) + 1 := by
                rw [ho, hc]
                simp only [List.length_append, List.length_cons]
                omega
              have hsplit : t ++ (u ++ (t2 ++ (v ++ render ts2 us2)))
                  = (t ++ (u ++ t2)) ++ (v ++ render ts2 us2) := by
                simp only [List.append_assoc]
              simp only [render_cons, padAfter, if_pos, if_neg hne]
              cases htl : t ++ (u ++ (t2 ++ (v ++ render ts2 us2))) with
              | nil =>
                rw [ho] at htl
                simp at htl
              | cons a as =>
                rw [htl] at hm
                rw [replaceAllFunc_match _ f a as _ hm, ← htl, hsplit, ← hlen3,
                  List.take_left, List.drop_left, hf,
                  replaceAllFunc_skip_free _ f hM v _ hv, hih]
                simp only [List.append_assoc]
        · rw [if_neg ht] at hcond
          obtain ⟨t2, rfl, ht2⟩ := isTagText_eq t htag
          have hnone : matchTagged opn close (('<' :: t2) ++ (u ++ render ts us)) = none := by
            unfold matchTagged
            rw [isPrefixOf_append_of_incomparable opn _ _ hcond]
            simp
          have hih := ih ts us (by simp at hl; omega) (by simpa using hlen) hrest hfree2
            (fun p hp => hnl p (by
              simp only [List.zip_cons_cons, List.mem_cons]
              exact Or.inr hp))
          have hskip := replaceAllFunc_skip_free _ f hM (t2 ++ u) (render ts us)
            (fun x hx => by
              rcases List.mem_append.mp hx with h | h
              · exact ht2 x h
              · exact hu x h)
          simp only [render_cons, padAfter, if_neg ht]
          rw [List.cons_append] at hnone ⊢
          rw [replaceAllFunc_nomatch _ f _ _ hnone, ← List.append_assoc, hskip, hih]
          simp only [List.append_assoc, List.cons_append]


theorem replaceAllFunc_render_newline (M : Str → Option Nat)
    (hM : ∀ a as, a ≠ '<' → M (a :: as) = none) (hit : Str → Bool) :
    ∀ (ts us : List Str),
      (∀ t ∈ ts, isTagText t = true ∧
        ∀ r, M (t ++ r) = if hit t = true then some t.length else none) →
      (∀ u ∈ us, ∀ x ∈ u, x ≠ '<') →
      replaceAllFunc M (fun s => s ++ ['\n']) 0 (render ts us)
        = render ts (newlineAfterTags hit ts us) := by
  intro ts
  induction ts with
  | nil => intro us _ _; rw [render_nil, render_nil]; rfl
  | cons t ts ih =>
    intro us hts hfree
    cases us with
    | nil => rfl
    | cons u us =>
      obtain ⟨htag, hMt⟩ := hts t (List.mem_cons_self _ _)
      obtain ⟨t2, rfl, ht2⟩ := isTagText_eq t htag
      have hu : ∀ x ∈ u, x ≠ '<' := hfree u (List.mem_cons_self _ _)
      have hih := ih us (fun s hs => hts s (List.mem_cons_of_mem _ hs))
        (fun v hv => hfree v (List.mem_cons_of_mem _ hv))
      have hm := hMt (u ++ render ts us)
      simp only [render_cons, newlineAfterTags]
      by_cases hh : hit ('<' :: t2) = true
      · rw [if_pos hh] at hm ⊢
        rw [List.cons_append] at hm ⊢
        have hl : ('<' :: t2).length = t2.length + 1 := rfl
        rw [hl] at hm
        rw [replaceAllFunc_match M _ _ _ _ hm, ← List.cons_append, ← hl, List.take_left,
          List.drop_left, replaceAllFunc_skip_free M _ hM u _ hu, hih]
        simp only [List.append_assoc, List.cons_append, List.nil_append]
      · rw [if_neg hh] at hm ⊢
        rw [List.cons_append] at hm ⊢
        have hskip := replaceAllFunc_skip_free M (fun s => s ++ ['\n']) hM (t2 ++ u)
          (render ts us) (fun x hx => by
            rcases List.mem_append.mp hx with h | h
            · exact ht2 x h
            · exact hu x h)
        rw [replaceAllFunc_nomatch M _ _ _ hm, ← List.append_assoc, hskip, hih]
        simp only [List.append_assoc, List.cons_append]

theorem stringsReplaceAll_append_newline (old l : Str) :
    stringsReplaceAll old (old ++ ['\n']) l
      = replaceAllFunc (matchLiteral old) (fun s => s ++ ['\n']) 0 l := by
  unfold stringsReplaceAll
  apply replaceAllFunc_congr
  intro s n h
  rw [(matchLiteral_some old s _ h).2]

theorem stringsReplaceAll_render (old o2 : Str) (ho : old = '<' :: o2) (ts us : List Str)
    (hfit : tagsFitLiteral old ts = true) (hfree : ∀ u ∈ us, ∀ x ∈ u, x ≠ '<') :
    stringsReplaceAll old (old ++ ['\n']) (render ts us)
      = render ts (newlineAfterTags (fun t => t == old) ts us) := by
  rw [stringsReplaceAll_append_newline]
  refine replaceAllFunc_render_newline (matchLiteral old)
    (fun a as ha => by rw [ho]; exact matchLiteral_head _ a as ha) _ ts us ?_ hfree
  intro t ht
  simp only [tagsFitLiteral, List.all_eq_true, Bool.and_eq_true, Bool.or_eq_true] at hfit
  obtain ⟨htag, hcase⟩ := hfit t ht
  refine ⟨htag, ?_⟩
  intro r
  rcases hcase with h | h
  · have he : t = old := by simpa using h
    rw [if_pos h, he]
    exact matchLiteral_at_occurrence old _ (List.prefix_append _ _)
  · have hne : (t == old) = false := by
      cases hb : t == old with
      | false => rfl
      | true =>
        have he : t = old := by simpa using hb
        rw [he] at h
        have hp : old.isPrefixOf old = true :=
          List.isPrefixOf_iff_prefix.mpr (List.prefix_refl old)
        simp [incomparable, hp] at h
    rw [hne]
    unfold matchLiteral
    rw [isPrefixOf_append_of_incomparable old t r h]
    simp

theorem matchHeadingClose_of_isCloseTag (t r : Str) (h : isCloseTag t = true) :
    matchHeadingClose (t ++ r) = some t.length := by
  rcases t with _ | ⟨a, _ | ⟨b, _ | ⟨c, _ | ⟨d, _ | ⟨e, _ | ⟨g, t⟩⟩⟩⟩⟩⟩ <;>
    simp only [isCloseTag] at h <;> try cases h
  simp only [Bool.and_eq_true, beq_iff_eq, decide_eq_true_eq] at h
  obtain ⟨⟨⟨⟨h1, h2⟩, h3⟩, h4⟩, h5⟩ := h
  simp [matchHeadingClose, h1, h2, h3, h4, h5]

theorem matchHeadingClose_of_notCloseStart (t r : Str) (h : notCloseStart t = true) :
    matchHeadingClose (t ++ r) = none := by
  rcases t with _ | ⟨a, _ | ⟨b, _ | ⟨c, t⟩⟩⟩ <;> simp only [notCloseStart] at h <;> try cases h
  simp only [Bool.or_eq_true, bne_iff_ne, ne_eq] at h
  rcases h with (h | h) | h
  · exact matchHeadingClose_head _ _ h
  · exact matchHeadingClose_second _ _ _ h
  · exact matchHeadingClose_third _ _ _ _ h

theorem headingClosePass_render (ts us : List Str) (hfit : tagsFitClose ts = true)
    (hfree : ∀ u ∈ us, ∀ x ∈ u, x ≠ '<') :
    replaceAllFunc matchHeadingClose (fun s => s ++ ['\n']) 0 (render ts us)
      = render ts (newlineAfterTags isCloseTag ts us) := by
  refine replaceAllFunc_render_newline matchHeadingClose matchHeadingClose_head _ ts us ?_ hfree
  intro t ht
  simp only [tagsFitClose, List.all_eq_true, Bool.and_eq_true, Bool.or_eq_true] at hfit
  obtain ⟨htag, hcase⟩ := hfit t ht
  refine ⟨htag, ?_⟩
  intro r
  rcases hcase with h | h
  · rw [if_pos h]
    exact matchHeadingClose_of_isCloseTag t r h
  · have hne : isCloseTag t = false := by
      cases hb : isCloseTag t with
      | false => rfl
      | true =>
        have h1 := matchHeadingClose_of_isCloseTag t [] hb
        have h2 := matchHeadingClose_of_notCloseStart t [] h
        rw [h2] at h1
        exact absurd h1 (by simp)
    rw [hne]
    simpa using matchHeadingClose_of_notCloseStart t r h


theorem matchTag_of_isClosedTag (t r : Str) (h : isClosedTag t = true) :
    matchTag (t ++ r) = some t.length := by
  cases t with
  | nil => simp [isClosedTag] at h
  | cons c t2 =>
    simp only [isClosedTag, Bool.and_eq_true, beq_iff_eq, List.all_eq_true, bne_iff_ne] at h
    obtain ⟨⟨hc, hlast⟩, hbody⟩ := h
    have ht2 : t2.dropLast ++ ['>'] = t2 := List.dropLast_append_getLast? '>' (by rw [hlast]; rfl)
    have htw : List.takeWhile (fun x => decide (x ≠ '>')) (t2 ++ r) = t2.dropLast := by
      rw [← ht2, List.append_assoc, List.takeWhile_append_of_pos]
      · simp
      · intro a ha
        have : a ∈ t2.dropLast := by simpa using ha
        simpa using hbody a this
    have hmem : '>' ∈ t2 ++ r := by
      rw [← ht2]
      simp
    have hlen : t2.length = t2.dropLast.length + 1 := by
      conv_lhs => rw [← ht2]
      simp
    rw [List.cons_append]
    simp only [matchTag]
    rw [if_pos ⟨hc, hmem⟩, htw, List.length_cons, hlen]
    congr 1
    omega

theorem matchTag_head (a : Char) (as : Str) (ha : a ≠ '<') : matchTag (a :: as) = none := by
  simp [matchTag, ha]

theorem strip_render : ∀ (ts us : List Str), ts.length = us.length →
    (∀ t ∈ ts, isClosedTag t = true) → (∀ u ∈ us, ∀ x ∈ u, x ≠ '<') →
    replaceAllFunc matchTag (fun _ => []) 0 (render ts us) = us.flatten := by
  intro ts
  induction ts with
  | nil =>
    intro us hlen _ _
    have : us = [] := List.eq_nil_of_length_eq_zero (by simpa using hlen.symm)
    subst this
    rfl
  | cons t ts ih =>
    intro us hlen hts hfree
    cases us with
    | nil => simp at hlen
    | cons u us =>
      have hm := matchTag_of_isClosedTag t (u ++ render ts us) (hts t (List.mem_cons_self _ _))
      have hu : ∀ x ∈ u, x ≠ '<' := hfree u (List.mem_cons_self _ _)
      have hih := ih us (by simpa using hlen) (fun s hs => hts s (List.mem_cons_of_mem _ hs))
        (fun v hv => hfree v (List.mem_cons_of_mem _ hv))
      rw [render_cons]
      cases t with
      | nil => simp [isClosedTag] at hts
      | cons c t2 =>
        rw [List.cons_append] at hm ⊢
        have hl : (c :: t2).length = t2.length + 1 := rfl
        rw [hl] at hm
        rw [replaceAllFunc_match matchTag _ _ _ _ hm, ← List.cons_append, ← hl, List.drop_left,
          List.nil_append, replaceAllFunc_skip_free matchTag _ matchTag_head u _ hu, hih,
          List.flatten_cons]

theorem padAfter_length (opn pad : Str) : ∀ (ts us : List Str), ts.length = us.length →
    (padAfter opn pad ts us).length = us.length := by
  intro ts
  induction ts with
  | nil => intro us h; cases us <;> simp_all [padAfter]
  | cons t ts ih =>
    intro us h
    cases us with
    | nil => simp at h
    | cons u us => simp [padAfter, ih us (by simpa using h)]

theorem padAfter_forall (P : Char → Prop) (opn pad : Str) (hp : ∀ x ∈ pad, P x) :
    ∀ (ts us : List Str), (∀ u ∈ us, ∀ x ∈ u, P x) →
      ∀ u ∈ padAfter opn pad ts us, ∀ x ∈ u, P x := by
  intro ts
  induction ts with
  | nil => intro us _ u hu; cases us <;> simp [padAfter] at hu
  | cons t ts ih =>
    intro us h u hu
    cases us with
    | nil => simp [padAfter] at hu
    | cons v us =>
      simp only [padAfter, List.mem_cons] at hu
      rcases hu with rfl | hu
      · intro x hx
        split at hx
        · rcases List.mem_append.mp hx with hx | hx
          · exact h v (List.mem_cons_self _ _) x hx
          · exact hp x hx
        · exact h v (List.mem_cons_self _ _) x hx
      · exact ih us (fun w hw => h w (List.mem_cons_of_mem _ hw)) u hu

theorem newlineAfterTags_forall (P : Char → Prop) (hit : Str → Bool) (hp : P '\n') :
    ∀ (ts us : List Str), (∀ u ∈ us, ∀ x ∈ u, P x) →
      ∀ u ∈ newlineAfterTags hit ts us, ∀ x ∈ u, P x := by
  intro ts
  induction ts with
  | nil => intro us _ u hu; cases us <;> simp [newlineAfterTags] at hu
  | cons t ts ih =>
    intro us h u hu
    cases us with
    | nil => simp [newlineAfterTags] at hu
    | cons v us =>
      simp only [newlineAfterTags, List.mem_cons] at hu
      rcases hu with rfl | hu
      · intro x hx
        split at hx
        · rcases List.mem_cons.mp hx with rfl | hx
          · exact hp
          · exact h v (List.mem_cons_self _ _) x hx
        · exact h v (List.mem_cons_self _ _) x hx
      · exact ih us (fun w hw => h w (List.mem_cons_of_mem _ hw)) u hu

theorem newlineAfterTags_length (hit : Str → Bool) : ∀ (ts us : List Str),
    ts.length = us.length → (newlineAfterTags hit ts us).length = us.length := by
  intro ts
  induction ts with
  | nil => intro us h; cases us <;> simp_all [newlineAfterTags]
  | cons t ts ih =>
    intro us h
    cases us with
    | nil => simp at h
    | cons u us => simp [newlineAfterTags, ih us (by simpa using h)]


theorem padHeadings_render (i : Nat) (ts us : List Str) (hlen : ts.length = us.length)
    (hfit : tagsFitTagged (headingOpen i) (headingClose i) ts = true)
    (hfree : ∀ u ∈ us, ∀ x ∈ u, x ≠ '<' ∧ x ≠ '\n') :
    padHeadings i (render ts us)
      = render ts (padAfter (headingOpen i) (List.replicate (18 - 2 * (i - 1)) pauseChar)
          ts us) := by
  unfold padHeadings
  refine replaceAllFunc_render_tagged (headingOpen i) (headingClose i) _ _ rfl rfl
    (by intro h; have := congrArg List.length h; simp [headingOpen, headingClose] at this)
    (padHeading i) _ ?_ ts.length ts us (le_refl _) hlen hfit
    (fun u hu x hx => (hfree u hu x hx).1) ?_
  · intro u
    have := padHeading_tagged i i u
    simpa only [List.append_assoc] using this
  · intro p hp _ x hx
    obtain ⟨a, b⟩ := p
    exact (hfree b (List.of_mem_zip hp).2 x hx).2

theorem foldl_padHeadings_render (ts : List Str) : ∀ (L : List Nat) (us : List Str),
    ts.length = us.length →
    (∀ i ∈ L, tagsFitTagged (headingOpen i) (headingClose i) ts = true) →
    (∀ u ∈ us, ∀ x ∈ u, x ≠ '<' ∧ x ≠ '\n') →
    L.foldl (fun inp i => padHeadings i inp) (render ts us)
      = render ts (L.foldl (fun vs i =>
          padAfter (headingOpen i) (List.replicate (18 - 2 * (i - 1)) pauseChar) ts vs) us) ∧
    (L.foldl (fun vs i =>
          padAfter (headingOpen i) (List.replicate (18 - 2 * (i - 1)) pauseChar) ts vs)
        us).length = us.length ∧
    (∀ u ∈ L.foldl (fun vs i =>
          padAfter (headingOpen i) (List.replicate (18 - 2 * (i - 1)) pauseChar) ts vs) us,
      ∀ x ∈ u, x ≠ '<' ∧ x ≠ '\n') := by
  intro L
  induction L with
  | nil => intro us _ _ hfree; exact ⟨rfl, rfl, hfree⟩
  | cons i L ih =>
    intro us hlen hfit hfree
    have h1 := padHeadings_render i ts us hlen (hfit i (List.mem_cons_self _ _)) hfree
    have hl2 := padAfter_length (headingOpen i)
      (List.replicate (18 - 2 * (i - 1)) pauseChar) ts us hlen
    have hf2 := padAfter_forall (fun x => x ≠ '<' ∧ x ≠ '\n') (headingOpen i)
      (List.replicate (18 - 2 * (i - 1)) pauseChar)
      (fun x hx => by rw [List.eq_of_mem_replicate hx]; decide) ts us hfree
    obtain ⟨e1, e2, e3⟩ := ih _ (by rw [hl2]; exact hlen)
      (fun j hj => hfit j (List.mem_cons_of_mem _ hj)) hf2
    simp only [List.foldl_cons]
    exact ⟨by rw [h1, e1], by rw [e2, hl2], e3⟩

/-- What `addPause` does to a text given by its tags, when the tags suit all
passes and the texts between them hold neither `<` nor a newline. -/
theorem addPause_render (ts us : List Str) (hlen : ts.length = us.length)
    (hfit : tagsFitAll ts = true) (hfree : ∀ u ∈ us, ∀ x ∈ u, x ≠ '<' ∧ x ≠ '\n') :
    addPause (render ts us) = render ts (contentsAfterAddPause ts us) ∧
    (contentsAfterAddPause ts us).length = us.length ∧
    ∀ u ∈ contentsAfterAddPause ts us, ∀ x ∈ u, x ≠ '<' := by
  simp only [tagsFitAll, Bool.and_eq_true, List.all_eq_true] at hfit
  obtain ⟨⟨⟨⟨⟨hH, hS⟩, hP⟩, hC⟩, hB⟩, _⟩ := hfit
  obtain ⟨e1, l1, f1⟩ := foldl_padHeadings_render ts (List.range' 1 6) us hlen hH hfree
  generalize hv1 : (List.range' 1 6).foldl (fun vs i =>
      padAfter (headingOpen i) (List.replicate (18 - 2 * (i - 1)) pauseChar) ts vs) us = v1
    at e1 l1 f1
  have e2 := replaceAllFunc_render_tagged "<span>".toList "</span>".toList _ _ rfl rfl
    (by decide) padSpan [pauseChar, pauseChar]
    (by
      intro u
      have := padSpan_tagged u
      simpa only [List.append_assoc] using this)
    ts.length ts v1 (le_refl _) (by rw [l1]; exact hlen) hS
    (fun u hu x hx => (f1 u hu x hx).1)
    (by
      intro p hp _ x hx
      obtain ⟨a, b⟩ := p
      exact (f1 b (List.of_mem_zip hp).2 x hx).2)
  have l2 := padAfter_length "<span>".toList [pauseChar, pauseChar] ts v1
    (by rw [l1]; exact hlen)
  have f2 := padAfter_forall (fun x => x ≠ '<') "<span>".toList [pauseChar, pauseChar]
    (by decide) ts v1 (fun u hu x hx => (f1 u hu x hx).1)
  generalize hv2 : padAfter "<span>".toList [pauseChar, pauseChar] ts v1 = v2 at e2 l2 f2
  have e3 := stringsReplaceAll_render "</p>".toList _ rfl ts v2 hP f2
  have l3 := newlineAfterTags_length (fun t => t == "</p>".toList) ts v2
    (by rw [l2, l1]; exact hlen)
  have f3 := newlineAfterTags_forall (fun x => x ≠ '<') (fun t => t == "</p>".toList)
    (by decide) ts v2 f2
  generalize hv3 : newlineAfterTags (fun t => t == "</p>".toList) ts v2 = v3 at e3 l3 f3
  have e4 := headingClosePass_render ts v3 hC f3
  have l4 := newlineAfterTags_length isCloseTag ts v3 (by rw [l3, l2, l1]; exact hlen)
  have f4 := newlineAfterTags_forall (fun x => x ≠ '<') isCloseTag (by decide) ts v3 f3
  generalize hv4 : newlineAfterTags isCloseTag ts v3 = v4 at e4 l4 f4
  have e5 := stringsReplaceAll_render "<br>".toList _ rfl ts v4 hB f4
  have l5 := newlineAfterTags_length (fun t => t == "<br>".toList) ts v4
    (by rw [l4, l3, l2, l1]; exact hlen)
  have f5 := newlineAfterTags_forall (fun x => x ≠ '<') (fun t => t == "<br>".toList)
    (by decide) ts v4 f4
  have hp1 : "</p>\n".toList = "</p>".toList ++ ['\n'] := rfl
  have hp2 : "<br>\n".toList = "<br>".toList ++ ['\n'] := rfl
  have hc : contentsAfterAddPause ts us = newlineAfterTags (fun t => t == "<br>".toList) ts v4 := by
    unfold contentsAfterAddPause
    rw [hv1, hv2, hv3, hv4]
  refine ⟨?_, by rw [hc, l5, l4, l3, l2, l1], by rw [hc]; exact f5⟩
  unfold addPause
  simp only []
  rw [hp1, hp2, e1, e2, e3, e4, e5, hc]

/-- What `xhtml2txt` does to such a text: the tags go, the texts between them
stay, with the padding and the newlines of `addPause`. -/
theorem xhtml2txt_render (ts us : List Str) (hlen : ts.length = us.length)
    (hfit : tagsFitAll ts = true) (hfree : ∀ u ∈ us, ∀ x ∈ u, x ≠ '<' ∧ x ≠ '\n') :
    xhtml2txt (render ts us) = trimRightNewlines (contentsAfterAddPause ts us).flatten := by
  obtain ⟨e, l, f⟩ := addPause_render ts us hlen hfit hfree
  have hclosed : ∀ t ∈ ts, isClosedTag t = true := by
    simp only [tagsFitAll, Bool.and_eq_true, List.all_eq_true] at hfit
    exact hfit.2
  unfold xhtml2txt
  simp only []
  rw [e, strip_render ts _ (by rw [l]; exact hlen) hclosed f, removeBlankLines_id]


/-! ## End to end -/

/-- C12 (end-to-end text extraction): for all texts `a b c d e` that hold no
`<` and no newline (in particular for non-empty texts without `<`, `>` and
whitespace), `xhtml2txt` maps
`<h1>a</h1><p>b<br>c</p><p>d<span>e</span></p>` to `a`, 18 pause characters, a
newline, `b`, a newline, `c`, a newline, `d`, `e` and 2 pause characters: no
tag is left and there is no trailing newline. -/
theorem xhtml2txt_end_to_end (a b c d e : Str)
    (ha : ∀ x ∈ a, x ≠ '<' ∧ x ≠ '\n') (hb : ∀ x ∈ b, x ≠ '<' ∧ x ≠ '\n')
    (hc : ∀ x ∈ c, x ≠ '<' ∧ x ≠ '\n') (hd : ∀ x ∈ d, x ≠ '<' ∧ x ≠ '\n')
    (he : ∀ x ∈ e, x ≠ '<' ∧ x ≠ '\n') :
    xhtml2txt ("<h1>".toList ++ a ++ "</h1><p>".toList ++ b ++ "<br>".toList ++ c
        ++ "</p><p>".toList ++ d ++ "<span>".toList ++ e ++ "</span></p>".toList)
      = a ++ List.replicate 18 pauseChar ++ ['\n'] ++ b ++ ['\n'] ++ c ++ ['\n'] ++ d ++ e
          ++ List.replicate 2 pauseChar := by
  have e1 : "</h1><p>".toList = "</h1>".toList ++ "<p>".toList := rfl
  have e2 : "</p><p>".toList = "</p>".toList ++ "<p>".toList := rfl
  have e3 : "</span></p>".toList = "</span>".toList ++ "</p>".toList := rfl
  have hin : "<h1>".toList ++ a ++ "</h1><p>".toList ++ b ++ "<br>".toList ++ c
        ++ "</p><p>".toList ++ d ++ "<span>".toList ++ e ++ "</span></p>".toList
      = render ["<h1>".toList, "</h1>".toList, "<p>".toList, "<br>".toList, "</p>".toList,
          "<p>".toList, "<span>".toList, "</span>".toList, "</p>".toList]
          [a, [], b, c, [], d, e, [], []] := by
    rw [e1, e2, e3]
    simp only [render, List.append_assoc, List.nil_append, List.append_nil]
  have hfree : ∀ u ∈ [a, [], b, c, [], d, e, [], []], ∀ x ∈ u, x ≠ '<' ∧ x ≠ '\n' := by
    intro u hu
    simp only [List.mem_cons, List.mem_singleton, List.not_mem_nil, or_false] at hu
    rcases hu with rfl | rfl | rfl | rfl | rfl | rfl | rfl | rfl | rfl
    · exact ha
    · simp
    · exact hb
    · exact hc
    · simp
    · exact hd
    · exact he
    · simp
    · simp
  have hcont : contentsAfterAddPause
      ["<h1>".toList, "</h1>".toList, "<p>".toList, "<br>".toList, "</p>".toList,
        "<p>".toList, "<span>".toList, "</span>".toList, "</p>".toList]
      [a, [], b, c, [], d, e, [], []]
      = [a ++ List.replicate 18 pauseChar, ['\n'], b, '\n' :: c, ['\n'], d,
          e ++ [pauseChar, pauseChar], [], ['\n']] := by
    rfl
  have hfl : [a ++ List.replicate 18 pauseChar, ['\n'], b, '\n' :: c, ['\n'], d,
        e ++ [pauseChar, pauseChar], [], ['\n']].flatten
      = (a ++ List.replicate 18 pauseChar ++ ['\n'] ++ b ++ ['\n'] ++ c ++ ['\n'] ++ d ++ e
          ++ [pauseChar] ++ [pauseChar]) ++ ['\n'] := by
    simp
  have hout : a ++ List.replicate 18 pauseChar ++ ['\n'] ++ b ++ ['\n'] ++ c ++ ['\n'] ++ d ++ e
        ++ List.replicate 2 pauseChar
      = (a ++ List.replicate 18 pauseChar ++ ['\n'] ++ b ++ ['\n'] ++ c ++ ['\n'] ++ d ++ e
          ++ [pauseChar]) ++ [pauseChar] := by
    simp [List.replicate]
  rw [hin, xhtml2txt_render
      ["<h1>".toList, "</h1>".toList, "<p>".toList, "<br>".toList, "</p>".toList,
        "<p>".toList, "<span>".toList, "</span>".toList, "</p>".toList]
      [a, [], b, c, [], d, e, [], []] rfl (by decide) hfree, hcont, hfl, hout]
  unfold trimRightNewlines
  rw [List.rdropWhile_concat_pos _ _ _ (by decide), List.rdropWhile_concat_neg _ _ _ (by decide)]

/-- Witness of C12 on the input of `TestXhtml2txt`. -/
theorem xhtml2txt_end_to_end_witness :
    xhtml2txt ("<h1>".toList ++ "見出し".toList ++ "</h1><p>".toList ++ "本文と".toList
        ++ "<br>".toList ++ "改行".toList ++ "</p><p>".toList ++ "本文と".toList
        ++ "<span>".toList ++ "目立つ文字".toList ++ "</span></p>".toList)
      = "見出し".toList ++ List.replicate 18 pauseChar ++ ['\n'] ++ "本文と".toList ++ ['\n']
          ++ "改行".toList ++ ['\n'] ++ "本文と".toList ++ "目立つ文字".toList
          ++ List.replicate 2 pauseChar ∧
    xhtml2txt "<h1>見出し</h1><p>本文と<br>改行</p><p>本文と<span>目立つ文字</span></p>".toList
      = "見出し　　　　　　　　　　　　　　　　　　\n本文と\n改行\n本文と目立つ文字　　".toList :=
  ⟨xhtml2txt_end_to_end "見出し".toList "本文と".toList "改行".toList "本文と".toList
    "目立つ文字".toList (by decide) (by decide) (by decide) (by decide) (by decide),
   by decide⟩


/-- C18 (adjacent headings are padded independently): for every level `N` in
`1..6` and all contents `c1`, `c2` without `<` and without newline,
`addPause("<hN>" + c1 + "</hN><hN>" + c2 + "</hN>")` pads each heading before
its own closing tag with `18 - 2*(N-1)` pause characters and puts a newline
behind each closing tag. -/
theorem addPause_adjacent_headings (N : Nat) (c1 c2 : Str) (h1 : 1 ≤ N) (h6 : N ≤ 6)
    (hc1 : ∀ x ∈ c1, x ≠ '<' ∧ x ≠ '\n') (hc2 : ∀ x ∈ c2, x ≠ '<' ∧ x ≠ '\n') :
    addPause (headingOpen N ++ c1 ++ headingClose N ++ headingOpen N ++ c2 ++ headingClose N)
      = headingOpen N ++ c1 ++ List.replicate (18 - 2 * (N - 1)) pauseChar ++ headingClose N
          ++ ['\n'] ++ headingOpen N ++ c2 ++ List.replicate (18 - 2 * (N - 1)) pauseChar
          ++ headingClose N ++ ['\n'] := by
  have hfit : tagsFitAll [headingOpen N, headingClose N, headingOpen N, headingClose N]
      = true := by
    interval_cases N <;> decide
  have hcont : contentsAfterAddPause
      [headingOpen N, headingClose N, headingOpen N, headingClose N] [c1, [], c2, []]
      = [c1 ++ List.replicate (18 - 2 * (N - 1)) pauseChar, ['\n'],
          c2 ++ List.replicate (18 - 2 * (N - 1)) pauseChar, ['\n']] := by
    interval_cases N <;> rfl
  have hin : headingOpen N ++ c1 ++ headingClose N ++ headingOpen N ++ c2 ++ headingClose N
      = render [headingOpen N, headingClose N, headingOpen N, headingClose N]
          [c1, [], c2, []] := by
    simp only [render, List.append_assoc, List.nil_append, List.append_nil]
  have hfree : ∀ u ∈ [c1, [], c2, []], ∀ x ∈ u, x ≠ '<' ∧ x ≠ '\n' := by
    intro u hu
    simp only [List.mem_cons, List.mem_singleton, List.not_mem_nil, or_false] at hu
    rcases hu with rfl | rfl | rfl | rfl
    · exact hc1
    · simp
    · exact hc2
    · simp
  rw [hin, (addPause_render [headingOpen N, headingClose N, headingOpen N, headingClose N]
    [c1, [], c2, []] rfl hfit hfree).1, hcont]
  simp only [render, List.append_assoc, List.nil_append, List.append_nil, List.cons_append]

/-- Witness of C18: two level-2 headings, 16 pause characters each. -/
theorem addPause_adjacent_headings_witness :
    addPause (headingOpen 2 ++ "あ".toList ++ headingClose 2 ++ headingOpen 2 ++ "い".toList
        ++ headingClose 2)
      = headingOpen 2 ++ "あ".toList ++ List.replicate (18 - 2 * (2 - 1)) pauseChar
          ++ headingClose 2 ++ ['\n'] ++ headingOpen 2 ++ "い".toList
          ++ List.replicate (18 - 2 * (2 - 1)) pauseChar ++ headingClose 2 ++ ['\n'] ∧
    addPause "<h2>あ</h2><h2>い</h2>".toList
      = "<h2>あ　　　　　　　　　　　　　　　　</h2>\n<h2>い　　　　　　　　　　　　　　　　</h2>\n".toList :=
  ⟨addPause_adjacent_headings 2 "あ".toList "い".toList (by decide) (by decide) (by decide)
    (by decide),
   by decide⟩

/-- C15 (amended): applying `addPause` to its own output removes no pause
character, so the second output holds at least as many as the first; it can
hold more, because a padded heading or span still matches its pattern and is
padded again (`<h1>a</h1>`: 18 after one pass, 36 after two). -/
theorem addPause_twice (x : Str) :
    (addPause x).count pauseChar ≤ (addPause (addPause x)).count pauseChar ∧
    (addPause "<h1>a</h1>".toList).count pauseChar
      < (addPause (addPause "<h1>a</h1>".toList)).count pauseChar :=
  ⟨(inserted_addPause (addPause x)).count_le pauseChar, by decide⟩

end Epub2Audio
